import Mathlib

/-! AVL tree of `include/avl.hpp` and its baseline `include/bst.hpp`: embedding and
verification.

The C++ class `AVL<T>` owns a pointer `root` to a `TreeNode`; every private
operation takes the slot `TreeNode*& node` and overwrites it in place.  The
embedding is value-level: a slot is a `TreeNode α` (`nil` is `nullptr`), and an
operation that mutates the slot returns the new content of the slot next to its
`bool` result.  The public wrappers (`insert(value)` is `insert(root, value)`,
and so on) are the private functions applied to the root slot, so a tree is
identified with the content of its root slot.

`T` is a type with `==`, `<` and `>`; the embedding takes a `LinearOrder α`.
The cached `int height` is an `Int`, and `balance` computes `hl - hr` and
`1 + max(hl, hr)` in `Int`.  That is exact wherever the `int` arithmetic of the source
stays in range: on the height-coherent trees the mutation engine maintains, a cached
height is the depth of the subtree, far from that range.  The statements about
`balance` on arbitrary cached heights carry the hypothesis `HeightsInRange`, which
keeps every cached height strictly between `-2^30` and `2^30`.

Dereferencing a null child inside `balance` is undefined behaviour in the source;
the embedding makes it explicit as `none`.
-/

set_option linter.unusedSectionVars false
set_option linter.unusedVariables false

namespace AVL

/-- Node of the tree (`struct TreeNode`): `data`, `left`, `right`, cached `height`.
`nil` stands for the null pointer. -/
inductive TreeNode (α : Type) where
  | nil : TreeNode α
  | node (data : α) (left : TreeNode α) (right : TreeNode α) (height : Int) : TreeNode α
  deriving DecidableEq

open TreeNode

variable {α : Type}

/-- Method `TreeNode::min`: `return left ? left->min() : this;`.  The method is only
ever invoked on a present node; on `nil` the embedding returns `nil`. -/
def TreeNode.min : TreeNode α → TreeNode α
  | nil => nil
  | node d l r h =>
    match l with
    | nil => node d l r h
    | node _ _ _ _ => TreeNode.min l

/-- Method `TreeNode::max`: `return right ? right->max() : this;`. -/
def TreeNode.max : TreeNode α → TreeNode α
  | nil => nil
  | node d l r h =>
    match r with
    | nil => node d l r h
    | node _ _ _ _ => TreeNode.max r

/-- Function `AVL::height`: `return node ? node->height : -1;` (reads the cached field). -/
def height : TreeNode α → Int
  | nil => -1
  | node _ _ _ h => h

/-- Function `AVL::balance(TreeNode*& node)`.  Returns the new content of the slot,
or `none` where the source dereferences a null pointer. -/
def balance : TreeNode α → Option (TreeNode α)
  | nil => some nil
  | node d l r _ =>
    -- hl = height(node->left); hr = height(node->right); node->height = 1 + max(hl, hr)
    if height l - height r > 1 then
      match l with
      | nil => none
      | node ld ll lr _ =>
        if height ll ≥ height lr then
          -- single right rotation
          some (node ld ll (node d lr r (1 + Max.max (height lr) (height r)))
                  (1 + Max.max (height ll) (1 + Max.max (height lr) (height r))))
        else
          -- double left-right rotation
          match lr with
          | nil => none
          | node lrd lrl lrr _ =>
            some (node lrd
                    (node ld ll lrl (1 + Max.max (height ll) (height lrl)))
                    (node d lrr r (1 + Max.max (height lrr) (height r)))
                    (1 + Max.max (1 + Max.max (height ll) (height lrl))
                                 (1 + Max.max (height lrr) (height r))))
    else if height l - height r < -1 then
      match r with
      | nil => none
      | node rd rl rr _ =>
        if height rr ≥ height rl then
          -- single left rotation
          some (node rd (node d l rl (1 + Max.max (height l) (height rl))) rr
                  (1 + Max.max (height rr) (1 + Max.max (height l) (height rl))))
        else
          -- double right-left rotation
          match rl with
          | nil => none
          | node rld rll rlr _ =>
            some (node rld
                    (node d l rll (1 + Max.max (height l) (height rll)))
                    (node rd rlr rr (1 + Max.max (height rlr) (height rr)))
                    (1 + Max.max (1 + Max.max (height l) (height rll))
                                 (1 + Max.max (height rlr) (height rr))))
    else
      some (node d l r (1 + Max.max (height l) (height r)))

variable [LinearOrder α]

/-- Function `AVL::insert(TreeNode*& node, const T& value)`: new slot content and the
returned `bool`. -/
def insert : TreeNode α → α → Option (TreeNode α × Bool)
  | nil, value => some (node value nil nil 0, true)
  | node d l r h, value =>
    if value = d then some (node d l r h, false)
    else if value < d then
      match insert l value with
      | none => none
      | some (l', inserted) =>
        if inserted then (balance (node d l' r h)).map (fun t => (t, true))
        else some (node d l' r h, false)
    else
      match insert r value with
      | none => none
      | some (r', inserted) =>
        if inserted then (balance (node d l r' h)).map (fun t => (t, true))
        else some (node d l r' h, false)

/-- Function `AVL::contain(const TreeNode* node, const T& value)`. -/
def contain : TreeNode α → α → Bool
  | nil, _ => false
  | node d l r _, value =>
    if value = d then true
    else if value < d then contain l value
    else contain r value

/-- Function `AVL::remove(TreeNode*& node, const T& value)`: new slot content and the
returned `bool`. -/
def remove : TreeNode α → α → Option (TreeNode α × Bool)
  | nil, _ => some (nil, false)
  | node d l r h, value =>
    if value < d then
      match remove l value with
      | none => none
      | some (l', removed) =>
        if removed then (balance (node d l' r h)).map (fun t => (t, true))
        else some (node d l' r h, false)
    else if value > d then
      match remove r value with
      | none => none
      | some (r', removed) =>
        if removed then (balance (node d l r' h)).map (fun t => (t, true))
        else some (node d l r' h, false)
    else
      match l, r with
      | nil, _ => (balance r).map (fun t => (t, true))
      | node _ _ _ _, nil => (balance l).map (fun t => (t, true))
      | node _ _ _ _, node _ _ _ _ =>
        match TreeNode.min r with
        | nil => none
        | node s _ _ _ =>
          match remove r s with
          | none => none
          | some (r', removed) =>
            if removed then (balance (node s l r' h)).map (fun t => (t, true))
            else some (node s l r' h, false)

/-- Function `AVL::in_order(const TreeNode* node, std::vector<T>& result)`: the vector
after the call. -/
def in_order_node : TreeNode α → List α → List α
  | nil, result => result
  | node d l r _, result => in_order_node r (in_order_node l result ++ [d])

/-- Function `AVL::in_order()`. -/
def in_order (root : TreeNode α) : List α := in_order_node root []

/-- Function `AVL::pre_order(const TreeNode* node, std::vector<T>& result)`. -/
def pre_order_node : TreeNode α → List α → List α
  | nil, result => result
  | node d l r _, result => pre_order_node r (pre_order_node l (result ++ [d]))

/-- Function `AVL::pre_order()`. -/
def pre_order (root : TreeNode α) : List α := pre_order_node root []

/-- Function `AVL::post_order(const TreeNode* node, std::vector<T>& result)`. -/
def post_order_node : TreeNode α → List α → List α
  | nil, result => result
  | node d l r _, result => post_order_node r (post_order_node l result) ++ [d]

/-- Function `AVL::post_order()`. -/
def post_order (root : TreeNode α) : List α := post_order_node root []

/-- Function `AVL::is_balanced(TreeNode* node)`: the pair (balanced, height), recomputed
from the shape alone. -/
def is_balanced_node : TreeNode α → Bool × Int
  | nil => (true, -1)
  | node _ l r _ =>
    ((is_balanced_node l).1 && (is_balanced_node r).1
        && decide (|(is_balanced_node l).2 - (is_balanced_node r).2| ≤ 1),
     1 + Max.max (is_balanced_node l).2 (is_balanced_node r).2)

/-- Function `AVL::is_balanced()`. -/
def is_balanced (root : TreeNode α) : Bool := (is_balanced_node root).1

/-- One public mutating call. -/
inductive Op (α : Type) where
  | insert (v : α) : Op α
  | remove (v : α) : Op α
  deriving DecidableEq

/-- Effect of one public call on the root slot. -/
def step (t : TreeNode α) : Op α → Option (TreeNode α)
  | Op.insert v => (insert t v).map Prod.fst
  | Op.remove v => (remove t v).map Prod.fst

/-- Effect of a sequence of public calls, first call first. -/
def run (t : TreeNode α) : List (Op α) → Option (TreeNode α)
  | [] => some t
  | op :: ops => (step t op).bind (fun t' => run t' ops)

/-- Trees the public interface can produce from the empty tree. -/
def Reachable (t : TreeNode α) : Prop := ∃ ops : List (Op α), run nil ops = some t

/-! ## Invariants -/

/-- Structural height of a subtree: `-1` when absent, else one more than the higher child. -/
def realHeight : TreeNode α → Int
  | nil => -1
  | node _ l r _ => 1 + Max.max (realHeight l) (realHeight r)

/-- Balance invariant on structural heights: at every node the children's heights differ by
at most one. -/
def Balanced : TreeNode α → Prop
  | nil => True
  | node _ l r _ => |realHeight l - realHeight r| ≤ 1 ∧ Balanced l ∧ Balanced r

/-- Height coherence: every cached height is `1 + max` of the children's cached heights. -/
def Coherent : TreeNode α → Prop
  | nil => True
  | node _ l r h => h = 1 + Max.max (height l) (height r) ∧ Coherent l ∧ Coherent r

/-- Ordering invariant: left subtree strictly smaller, right subtree strictly greater. -/
def Ordered : TreeNode α → Prop
  | nil => True
  | node d l r _ =>
    (∀ x ∈ in_order l, x < d) ∧ (∀ x ∈ in_order r, d < x) ∧ Ordered l ∧ Ordered r

/-- Every present node has a cached height that is not negative. -/
def HeightsNonneg : TreeNode α → Prop
  | nil => True
  | node _ l r h => 0 ≤ h ∧ HeightsNonneg l ∧ HeightsNonneg r

/-- Working invariant: coherence and balance stated on the cached heights. -/
def Inv : TreeNode α → Prop
  | nil => True
  | node _ l r h =>
    Inv l ∧ Inv r ∧ h = 1 + Max.max (height l) (height r)
      ∧ -1 ≤ height l - height r ∧ height l - height r ≤ 1

instance decBalanced : (t : TreeNode α) → Decidable (Balanced t)
  | nil => isTrue trivial
  | node _ l r _ =>
    have := decBalanced l
    have := decBalanced r
    inferInstanceAs (Decidable (|realHeight l - realHeight r| ≤ 1 ∧ Balanced l ∧ Balanced r))

instance decCoherent : (t : TreeNode α) → Decidable (Coherent t)
  | nil => isTrue trivial
  | node _ l r h =>
    have := decCoherent l
    have := decCoherent r
    inferInstanceAs
      (Decidable (h = 1 + Max.max (height l) (height r) ∧ Coherent l ∧ Coherent r))

instance decOrdered : (t : TreeNode α) → Decidable (Ordered t)
  | nil => isTrue trivial
  | node d l r _ =>
    have := decOrdered l
    have := decOrdered r
    inferInstanceAs (Decidable ((∀ x ∈ in_order l, x < d) ∧ (∀ x ∈ in_order r, d < x)
      ∧ Ordered l ∧ Ordered r))

instance decHeightsNonneg : (t : TreeNode α) → Decidable (HeightsNonneg t)
  | nil => isTrue trivial
  | node _ l r h =>
    have := decHeightsNonneg l
    have := decHeightsNonneg r
    inferInstanceAs (Decidable (0 ≤ h ∧ HeightsNonneg l ∧ HeightsNonneg r))

/-- Every node's cached height is the structural height of the subtree it roots. -/
def CachedExact : TreeNode α → Prop
  | nil => True
  | node d l r h => h = realHeight (node d l r h) ∧ CachedExact l ∧ CachedExact r

instance decCachedExact : (t : TreeNode α) → Decidable (CachedExact t)
  | nil => isTrue trivial
  | node d l r h =>
    have := decCachedExact l
    have := decCachedExact r
    inferInstanceAs (Decidable (h = realHeight (node d l r h) ∧ CachedExact l ∧ CachedExact r))

/-- Value set after a sequence of calls, as a finite set: `insert` adds, `remove` erases. -/
def applyOp (s : Finset α) : Op α → Finset α
  | Op.insert v => Insert.insert v s
  | Op.remove v => s.erase v

/-- Values currently stored after the calls `ops` on an empty container. -/
def values (ops : List (Op α)) : Finset α := ops.foldl applyOp ∅

/-! ## Concrete trees -/

/-- The calls `insert(5)`, `insert(3)`, `insert(8)`, `insert(1)`, `insert(4)`, `insert(7)`,
`insert(9)`. -/
def sampleOps : List (Op Int) :=
  [Op.insert 5, Op.insert 3, Op.insert 8, Op.insert 1, Op.insert 4, Op.insert 7, Op.insert 9]

/-- The tree those calls build from the empty tree. -/
def sample : TreeNode Int :=
  node 5 (node 3 (node 1 nil nil 0) (node 4 nil nil 0) 1)
    (node 8 (node 7 nil nil 0) (node 9 nil nil 0) 1) 2

/-- An ordered tree whose cached heights (`100` on node 5, `-5` on node 3) are not the ones
the mutation engine maintains: node 5 has only a left child. -/
def staleLeft : TreeNode Int :=
  node 10 (node 5 (node 3 nil nil (-5)) nil 100) nil 0

/-! ## Vocabulary for the behavioural claims -/

/-- Two trees have the same shape: the same nodes in the same places, whatever values and
cached heights they carry. -/
def SameShape : TreeNode α → TreeNode α → Prop
  | nil, nil => True
  | node _ l r _, node _ l' r' _ => SameShape l l' ∧ SameShape r r'
  | _, _ => False

instance decSameShape : (t t' : TreeNode α) → Decidable (SameShape t t')
  | nil, nil => isTrue trivial
  | node _ l r _, node _ l' r' _ =>
    have := decSameShape l l'
    have := decSameShape r r'
    inferInstanceAs (Decidable (SameShape l l' ∧ SameShape r r'))
  | nil, node _ _ _ _ => isFalse (fun h => h)
  | node _ _ _ _, nil => isFalse (fun h => h)

/-- Every cached height of the subtree lies strictly between `-2^30` and `2^30`.  On such
heights no difference `hl - hr` and no `1 + max(..)` formed in `balance` leaves the range of
`int`, so the source computes what the embedding computes. -/
def HeightsInRange : TreeNode α → Prop
  | nil => True
  | node _ l r h =>
    (-1073741824 < h ∧ h < 1073741824) ∧ HeightsInRange l ∧ HeightsInRange r

instance decHeightsInRange : (t : TreeNode α) → Decidable (HeightsInRange t)
  | nil => isTrue trivial
  | node _ l r h =>
    have := decHeightsInRange l
    have := decHeightsInRange r
    inferInstanceAs (Decidable ((-1073741824 < h ∧ h < 1073741824)
      ∧ HeightsInRange l ∧ HeightsInRange r))

/-- The tree `s` sits in `t`: it is `t` itself or the subtree under one of its nodes. -/
def Subtree (s : TreeNode α) : TreeNode α → Prop
  | nil => s = nil
  | node d l r h => s = node d l r h ∨ Subtree s l ∨ Subtree s r

instance decSubtree (s : TreeNode α) : (t : TreeNode α) → Decidable (Subtree s t)
  | nil => inferInstanceAs (Decidable (s = nil))
  | node d l r h =>
    have := decSubtree s l
    have := decSubtree s r
    inferInstanceAs (Decidable (s = node d l r h ∨ Subtree s l ∨ Subtree s r))

/-- Number of nodes of a subtree. -/
def size : TreeNode α → Nat
  | nil => 0
  | node _ l r _ => size l + 1 + size r

/-- What the specification says the successor removal does, written as a function of its own:
walk down the left children; at the node that has no left child put its right child in its
place (the `!node->left` branch of `remove`, followed by `balance` on the slot); on the way back
run `balance` at every node passed.  It is compared with `remove` in the claim on successor
removal. -/
def removeLeftmost : TreeNode α → Option (TreeNode α)
  | nil => none
  | node d l r h =>
    match l with
    | nil => balance r
    | node _ _ _ _ =>
      match removeLeftmost l with
      | none => none
      | some l' => balance (node d l' r h)

/-- One public call, `contain` included. -/
inductive Call (α : Type) where
  | insert (v : α) : Call α
  | remove (v : α) : Call α
  | contain (v : α) : Call α
  deriving DecidableEq

/-- The external contract on sorted lists: for one call and `in_order()` before it, the `bool`
the call returns and `in_order()` after it. -/
def expected (before : List α) : Call α → Bool × List α
  | Call.insert v =>
    (decide (v ∉ before),
      if v ∈ before then before else List.orderedInsert (· ≤ ·) v before)
  | Call.remove v => (decide (v ∈ before), before.erase v)
  | Call.contain v => (decide (v ∈ before), before)

/-- Effect of one public call: the root slot afterwards and the returned `bool`. -/
def call (t : TreeNode α) : Call α → Option (TreeNode α × Bool)
  | Call.insert v => insert t v
  | Call.remove v => remove t v
  | Call.contain v => some (t, contain t v)

/-- What a client observes along a sequence of calls: for every call, in order, the returned
`bool` and `in_order()` right after the call. -/
def trace (t : TreeNode α) : List (Call α) → Option (List (Bool × List α))
  | [] => some []
  | c :: cs =>
    match call t c with
    | none => none
    | some (t', b) => (trace t' cs).map (fun rest => (b, in_order t') :: rest)

end AVL

/-! # Unbalanced baseline of `include/bst.hpp` -/

namespace BST

/-- Node of the baseline tree (`struct TreeNode`): `value`, `left`, `right`. -/
inductive TreeNode (α : Type) where
  | nil : TreeNode α
  | node (value : α) (left : TreeNode α) (right : TreeNode α) : TreeNode α
  deriving DecidableEq

open TreeNode

variable {α : Type} [LinearOrder α]

/-- Function `BST::insert(TreeNode*& node, const T& val)`: new slot content and the returned
`bool`. -/
def insert : TreeNode α → α → TreeNode α × Bool
  | nil, val => (node val nil nil, true)
  | node x l r, val =>
    if val < x then ((node x (insert l val).1 r), (insert l val).2)
    else if x < val then ((node x l (insert r val).1), (insert r val).2)
    else (node x l r, false)

/-- Function `BST::contain(TreeNode* node, const T& val)`. -/
def contain : TreeNode α → α → Bool
  | nil, _ => false
  | node x l r, val =>
    if val < x then contain l val
    else if x < val then contain r val
    else true

/-- Function `BST::findMin(TreeNode* node)`: `while (node && node->left) node = node->left;`. -/
def findMin : TreeNode α → TreeNode α
  | nil => nil
  | node x l r =>
    match l with
    | nil => node x l r
    | node _ _ _ => findMin l

/-- Function `BST::remove(TreeNode*& node, const T& val)`: new slot content and the returned
`bool`; `none` where the source would read `minNode->value` through a null pointer. -/
def remove : TreeNode α → α → Option (TreeNode α × Bool)
  | nil, _ => some (nil, false)
  | node x l r, val =>
    if val < x then
      match remove l val with
      | none => none
      | some (l', b) => some (node x l' r, b)
    else if x < val then
      match remove r val with
      | none => none
      | some (r', b) => some (node x l r', b)
    else
      match l, r with
      | nil, nil => some (nil, true)
      | nil, node _ _ _ => some (r, true)
      | node _ _ _, nil => some (l, true)
      | node _ _ _, node _ _ _ =>
        match findMin r with
        | nil => none
        | node m _ _ =>
          -- the result of the inner call is discarded by the source
          match remove r m with
          | none => none
          | some (r', _) => some (node m l r', true)

/-- Function `BST::inOrder(TreeNode* node, std::vector<T>& out)`: the vector after the call. -/
def inOrder : TreeNode α → List α → List α
  | nil, out => out
  | node x l r, out => inOrder r (inOrder l out ++ [x])

/-- Function `BST::in_order()`. -/
def in_order (root : TreeNode α) : List α := inOrder root []

/-- Effect of one public call on the baseline. -/
def call (t : TreeNode α) : AVL.Call α → Option (TreeNode α × Bool)
  | AVL.Call.insert v => some (insert t v)
  | AVL.Call.remove v => remove t v
  | AVL.Call.contain v => some (t, contain t v)

/-- What a client of the baseline observes along a sequence of calls. -/
def trace (t : TreeNode α) : List (AVL.Call α) → Option (List (Bool × List α))
  | [] => some []
  | c :: cs =>
    match call t c with
    | none => none
    | some (t', b) => (trace t' cs).map (fun rest => (b, in_order t') :: rest)

end BST

namespace AVL

open TreeNode

variable {α : Type} [LinearOrder α]

/-- The tree built from the empty tree by `insert(10)`, `insert(20)`. -/
def chain : TreeNode Int := node 10 nil (node 20 nil nil 0) 1

/-- A sequence of public calls that exercises rotations, duplicates, absent values and a
two-children removal. -/
def sampleCalls : List (Call Int) :=
  [Call.insert 5, Call.insert 3, Call.insert 8, Call.insert 3, Call.contain 8, Call.insert 9,
   Call.insert 10, Call.remove 4, Call.remove 5, Call.contain 5, Call.remove 9, Call.insert 1]

/-! ## Traversals -/

theorem in_order_node_eq (t : TreeNode α) (acc : List α) :
    in_order_node t acc = acc ++ in_order_node t [] := by
  induction t generalizing acc with
  | nil => simp [in_order_node]
  | node d l r h ihl ihr =>
    simp only [in_order_node]
    rw [ihr (in_order_node l acc ++ [d]), ihl acc, ihr (in_order_node l [] ++ [d])]
    simp

@[simp] theorem in_order_nil : in_order (nil : TreeNode α) = [] := rfl

@[simp] theorem in_order_cons (d : α) (l r : TreeNode α) (h : Int) :
    in_order (node d l r h) = in_order l ++ d :: in_order r := by
  show in_order_node (node d l r h) [] = in_order_node l [] ++ d :: in_order_node r []
  simp only [in_order_node]
  rw [in_order_node_eq r]
  simp

/-! ## Unfolding lemmas -/

@[simp] theorem height_nil : height (nil : TreeNode α) = -1 := rfl

@[simp] theorem height_node (d : α) (l r : TreeNode α) (h : Int) :
    height (node d l r h) = h := rfl

@[simp] theorem realHeight_nil : realHeight (nil : TreeNode α) = -1 := rfl

@[simp] theorem realHeight_node (d : α) (l r : TreeNode α) (h : Int) :
    realHeight (node d l r h) = 1 + Max.max (realHeight l) (realHeight r) := rfl

@[simp] theorem inv_nil : Inv (nil : TreeNode α) := trivial

theorem inv_node (d : α) (l r : TreeNode α) (h : Int) :
    Inv (node d l r h) ↔ (Inv l ∧ Inv r ∧ h = 1 + Max.max (height l) (height r)
      ∧ -1 ≤ height l - height r ∧ height l - height r ≤ 1) := Iff.rfl

@[simp] theorem ordered_nil : Ordered (nil : TreeNode α) := trivial

theorem ordered_node (d : α) (l r : TreeNode α) (h : Int) :
    Ordered (node d l r h) ↔ ((∀ x ∈ in_order l, x < d) ∧ (∀ x ∈ in_order r, d < x)
      ∧ Ordered l ∧ Ordered r) := Iff.rfl

@[simp] theorem coherent_nil : Coherent (nil : TreeNode α) := trivial

theorem coherent_node (d : α) (l r : TreeNode α) (h : Int) :
    Coherent (node d l r h) ↔ (h = 1 + Max.max (height l) (height r)
      ∧ Coherent l ∧ Coherent r) := Iff.rfl

@[simp] theorem balanced_nil : Balanced (nil : TreeNode α) := trivial

theorem balanced_node (d : α) (l r : TreeNode α) (h : Int) :
    Balanced (node d l r h) ↔ (|realHeight l - realHeight r| ≤ 1
      ∧ Balanced l ∧ Balanced r) := Iff.rfl

@[simp] theorem heightsNonneg_nil : HeightsNonneg (nil : TreeNode α) := trivial

theorem heightsNonneg_node (d : α) (l r : TreeNode α) (h : Int) :
    HeightsNonneg (node d l r h) ↔ (0 ≤ h ∧ HeightsNonneg l ∧ HeightsNonneg r) := Iff.rfl

/-! ## The rotation engine -/

theorem balance_in_order (t t' : TreeNode α) (hb : balance t = some t') :
    in_order t' = in_order t := by
  unfold balance at hb
  split at hb
  · cases hb; rfl
  · split_ifs at hb
    · split at hb
      · cases hb
      · split_ifs at hb
        · cases hb; simp
        · split at hb
          · cases hb
          · cases hb; simp
    · split at hb
      · cases hb
      · split_ifs at hb
        · cases hb; simp
        · split at hb
          · cases hb
          · cases hb; simp
    · cases hb; simp

theorem Inv.height_ge : ∀ {t : TreeNode α}, Inv t → -1 ≤ height t
  | nil, _ => by simp [height]
  | node _ l r h, hi => by
    have h1 := Inv.height_ge hi.1
    have h2 := Inv.height_ge hi.2.1
    have h3 := hi.2.2.1
    simp only [height_node]
    omega

theorem balance_inv (d : α) (l r : TreeNode α) (h : Int) (hl : Inv l) (hr : Inv r)
    (h1 : -2 ≤ height l - height r) (h2 : height l - height r ≤ 2) :
    ∃ t', balance (node d l r h) = some t' ∧ Inv t' ∧
      Max.max (height l) (height r) ≤ height t' ∧
      height t' ≤ 1 + Max.max (height l) (height r) ∧
      (-1 ≤ height l - height r → height l - height r ≤ 1 →
        t' = node d l r (1 + Max.max (height l) (height r))) := by
  simp only [balance]
  split_ifs with c1 c2
  · -- left heavy
    cases l with
    | nil => simp only [height_nil, height_node] at c1; have := Inv.height_ge hr; omega
    | node ld ll lr lh =>
      have hll := Inv.height_ge hl.1
      have hlr := Inv.height_ge hl.2.1
      have hrr := Inv.height_ge hr
      obtain ⟨ill, ilr, e, b1, b2⟩ := hl
      simp only [height_nil, height_node] at c1 h1 h2 ⊢
      split_ifs with c3
      · refine ⟨_, rfl, ?_, ?_, ?_, ?_⟩
        · simp only [inv_node, height_nil, height_node, true_and, *]
          omega
        · simp only [height_nil, height_node]; omega
        · simp only [height_nil, height_node]; omega
        · intro _ _; omega
      · cases lr with
        | nil => simp only [height_nil, height_node] at c3 hlr; omega
        | node lrd lrl lrr lrh =>
          obtain ⟨i1, i2, e', b3, b4⟩ := ilr
          have := Inv.height_ge i1
          have := Inv.height_ge i2
          simp only [height_nil, height_node] at c3 e b1 b2 ⊢
          refine ⟨_, rfl, ?_, ?_, ?_, ?_⟩
          · simp only [inv_node, height_nil, height_node, true_and, *]
            omega
          · simp only [height_nil, height_node]; omega
          · simp only [height_nil, height_node]; omega
          · intro _ _; omega
  · cases r with
    | nil => simp only [height_nil, height_node] at c2; have := Inv.height_ge hl; omega
    | node rd rl rr rh =>
      have hrl := Inv.height_ge hr.1
      have hrr := Inv.height_ge hr.2.1
      have hll := Inv.height_ge hl
      obtain ⟨irl, irr, e, b1, b2⟩ := hr
      simp only [height_nil, height_node] at c1 c2 h1 h2 ⊢
      split_ifs with c3
      · refine ⟨_, rfl, ?_, ?_, ?_, ?_⟩
        · simp only [inv_node, height_nil, height_node, true_and, *]
          omega
        · simp only [height_nil, height_node]; omega
        · simp only [height_nil, height_node]; omega
        · intro _ _; omega
      · cases rl with
        | nil => simp only [height_nil, height_node] at c3 hrl; omega
        | node rld rll rlr rlh =>
          obtain ⟨i1, i2, e', b3, b4⟩ := irl
          have := Inv.height_ge i1
          have := Inv.height_ge i2
          simp only [height_nil, height_node] at c3 e b1 b2 ⊢
          refine ⟨_, rfl, ?_, ?_, ?_, ?_⟩
          · simp only [inv_node, height_nil, height_node, true_and, *]
            omega
          · simp only [height_nil, height_node]; omega
          · simp only [height_nil, height_node]; omega
          · intro _ _; omega
  · refine ⟨_, rfl, ?_, ?_, ?_, ?_⟩
    · simp only [inv_node, true_and, *]
      omega
    · simp only [height_nil, height_node]; omega
    · simp only [height_nil, height_node]; omega
    · intro _ _; rfl

theorem HeightsNonneg.height_ge_neg_one : ∀ {t : TreeNode α}, HeightsNonneg t → -1 ≤ height t
  | nil, _ => by simp
  | node _ l r h, hi => by
    have := hi.1
    simp only [height_node]
    omega

theorem Inv.heightsNonneg : ∀ {t : TreeNode α}, Inv t → HeightsNonneg t
  | nil, _ => trivial
  | node _ l r h, hi => by
    have h1 := Inv.height_ge hi.1
    have h3 := hi.2.2.1
    exact ⟨by omega, Inv.heightsNonneg hi.1, Inv.heightsNonneg hi.2.1⟩

theorem coherent_height_ge : ∀ {t : TreeNode α}, Coherent t → -1 ≤ height t
  | nil, _ => by simp
  | node _ l r h, hc => by
    have h1 := coherent_height_ge hc.2.1
    have h3 := hc.1
    simp only [height_node]
    omega

/-- Coherent cached heights are never negative. -/
theorem coherent_heightsNonneg : ∀ {t : TreeNode α}, Coherent t → HeightsNonneg t
  | nil, _ => trivial
  | node _ l r h, hc => by
    have h1 := coherent_height_ge hc.2.1
    have h3 := hc.1
    exact ⟨by omega, coherent_heightsNonneg hc.2.1, coherent_heightsNonneg hc.2.2⟩

theorem balance_total (d : α) (l r : TreeNode α) (h : Int)
    (hl : HeightsNonneg l) (hr : HeightsNonneg r) :
    ∃ t', balance (node d l r h) = some t' ∧ HeightsNonneg t' := by
  have gl := hl.height_ge_neg_one
  have gr := hr.height_ge_neg_one
  simp only [balance]
  split_ifs with c1 c2
  · cases l with
    | nil => simp only [height_nil] at c1; omega
    | node ld ll lr lh =>
      obtain ⟨n0, nll, nlr⟩ := hl
      have gll := nll.height_ge_neg_one
      have glr := nlr.height_ge_neg_one
      simp only
      split_ifs with c3
      · refine ⟨_, rfl, ?_⟩
        simp only [heightsNonneg_node, true_and, and_true, *]
        omega
      · cases lr with
        | nil => simp only [height_nil] at c3; omega
        | node lrd lrl lrr lrh =>
          obtain ⟨n1, nlrl, nlrr⟩ := nlr
          have := nlrl.height_ge_neg_one
          have := nlrr.height_ge_neg_one
          refine ⟨_, rfl, ?_⟩
          simp only [heightsNonneg_node, true_and, and_true, *]
          omega
  · cases r with
    | nil => simp only [height_nil] at c2; omega
    | node rd rl rr rh =>
      obtain ⟨n0, nrl, nrr⟩ := hr
      have grl := nrl.height_ge_neg_one
      have grr := nrr.height_ge_neg_one
      simp only
      split_ifs with c3
      · refine ⟨_, rfl, ?_⟩
        simp only [heightsNonneg_node, true_and, and_true, *]
        omega
      · cases rl with
        | nil => simp only [height_nil] at c3; omega
        | node rld rll rlr rlh =>
          obtain ⟨n1, nrll, nrlr⟩ := nrl
          have := nrll.height_ge_neg_one
          have := nrlr.height_ge_neg_one
          refine ⟨_, rfl, ?_⟩
          simp only [heightsNonneg_node, true_and, and_true, *]
          omega
  · refine ⟨_, rfl, ?_⟩
    simp only [heightsNonneg_node, true_and, and_true, *]
    omega

theorem balance_total_of (t : TreeNode α) (ht : HeightsNonneg t) :
    ∃ t', balance t = some t' ∧ HeightsNonneg t' := by
  cases t with
  | nil => exact ⟨nil, rfl, trivial⟩
  | node d l r h => exact balance_total d l r h ht.2.1 ht.2.2

/-- On a coherent balanced node `balance` changes nothing. -/
theorem balance_of_inv (t : TreeNode α) (ht : Inv t) : balance t = some t := by
  cases t with
  | nil => rfl
  | node d l r h =>
    obtain ⟨il, ir, e, b1, b2⟩ := ht
    obtain ⟨t', e1, -, -, -, e2⟩ := balance_inv d l r h il ir (by omega) (by omega)
    rw [e1, e2 b1 b2, e]

/-! ## Sorted lists -/

theorem orderedInsert_append_left (v d : α) (l r : List α) (h : v ≤ d) :
    List.orderedInsert (· ≤ ·) v (l ++ d :: r)
      = List.orderedInsert (· ≤ ·) v l ++ d :: r := by
  induction l with
  | nil => simp [List.orderedInsert, h]
  | cons a l ih =>
    simp only [List.cons_append, List.orderedInsert, List.append_eq]
    split_ifs
    · rfl
    · rw [ih]; rfl

theorem orderedInsert_append_right (v d : α) (l r : List α) (hl : ∀ x ∈ l, x < v)
    (hd : d < v) :
    List.orderedInsert (· ≤ ·) v (l ++ d :: r)
      = l ++ d :: List.orderedInsert (· ≤ ·) v r := by
  induction l with
  | nil => simp [List.orderedInsert, not_le.mpr hd]
  | cons a l ih =>
    have ha : ¬ v ≤ a := not_le.mpr (hl a (List.mem_cons_self a l))
    simp only [List.cons_append, List.orderedInsert, ha, if_false, List.append_eq]
    rw [ih (fun x hx => hl x (List.mem_cons_of_mem a hx))]

theorem sorted_orderedInsert (v : α) (l : List α) (hs : l.Sorted (· < ·)) (hv : v ∉ l) :
    (List.orderedInsert (· ≤ ·) v l).Sorted (· < ·) := by
  have h1 : (List.orderedInsert (· ≤ ·) v l).Sorted (· ≤ ·) :=
    List.Sorted.orderedInsert v l (hs.imp le_of_lt)
  have h2 : (List.orderedInsert (· ≤ ·) v l).Nodup := by
    rw [(List.perm_orderedInsert (· ≤ ·) v l).nodup_iff]
    exact List.nodup_cons.mpr ⟨hv, hs.imp ne_of_lt⟩
  exact h1.lt_of_le h2

theorem ordered_iff_sorted (t : TreeNode α) : Ordered t ↔ (in_order t).Sorted (· < ·) := by
  induction t with
  | nil => simp [List.Sorted]
  | node d l r h ihl ihr =>
    rw [ordered_node, in_order_cons, ihl, ihr]
    unfold List.Sorted
    rw [List.pairwise_append, List.pairwise_cons]
    constructor
    · rintro ⟨h1, h2, h3, h4⟩
      refine ⟨h3, ⟨h2, h4⟩, ?_⟩
      intro a ha b hb
      rcases List.mem_cons.mp hb with rfl | hb
      · exact h1 a ha
      · exact lt_trans (h1 a ha) (h2 b hb)
    · rintro ⟨h3, ⟨h2, h4⟩, h5⟩
      exact ⟨fun x hx => h5 x hx d (List.mem_cons_self d _), h2, h3, h4⟩

/-! ## Insert -/

theorem insert_node_eq (d : α) (l r : TreeNode α) (h : Int) (v : α) :
    insert (node d l r h) v =
      if v = d then some (node d l r h, false)
      else if v < d then
        match insert l v with
        | none => none
        | some (l', inserted) =>
          if inserted then (balance (node d l' r h)).map (fun t => (t, true))
          else some (node d l' r h, false)
      else
        match insert r v with
        | none => none
        | some (r', inserted) =>
          if inserted then (balance (node d l r' h)).map (fun t => (t, true))
          else some (node d l r' h, false) := by
  rw [insert]

theorem insert_total (t : TreeNode α) (v : α) (ht : HeightsNonneg t) :
    ∃ t' b, insert t v = some (t', b) ∧ HeightsNonneg t' := by
  induction t with
  | nil => exact ⟨_, _, rfl, by simp [heightsNonneg_node]⟩
  | node d l r h ihl ihr =>
    obtain ⟨n0, nl, nr⟩ := ht
    rw [insert_node_eq]
    split_ifs with c1 c2
    · exact ⟨_, _, rfl, n0, nl, nr⟩
    · obtain ⟨l', b, e, nl'⟩ := ihl nl
      rw [e]
      cases b with
      | false => exact ⟨_, _, rfl, n0, nl', nr⟩
      | true =>
        obtain ⟨t', e', nt'⟩ := balance_total d l' r h nl' nr
        simp only [if_true, e', Option.map_some']
        exact ⟨_, _, rfl, nt'⟩
    · obtain ⟨r', b, e, nr'⟩ := ihr nr
      rw [e]
      cases b with
      | false => exact ⟨_, _, rfl, n0, nl, nr'⟩
      | true =>
        obtain ⟨t', e', nt'⟩ := balance_total d l r' h nl nr'
        simp only [if_true, e', Option.map_some']
        exact ⟨_, _, rfl, nt'⟩

/-- A call of `insert` that returns `false` leaves the slot as it was. -/
theorem insert_false (t t' : TreeNode α) (v : α) (hi : insert t v = some (t', false)) :
    t' = t := by
  induction t generalizing t' with
  | nil => simp [insert] at hi
  | node d l r h ihl ihr =>
    rw [insert_node_eq] at hi
    split_ifs at hi with c1 c2
    · simp at hi; exact hi.symm
    · cases e : insert l v with
      | none => rw [e] at hi; simp at hi
      | some p =>
        obtain ⟨l', b⟩ := p
        rw [e] at hi
        cases b with
        | true =>
          simp only [if_true] at hi
          cases eb : balance (node d l' r h) <;> simp [eb] at hi
        | false =>
          simp at hi
          rw [← hi, ihl l' e]
    · cases e : insert r v with
      | none => rw [e] at hi; simp at hi
      | some p =>
        obtain ⟨r', b⟩ := p
        rw [e] at hi
        cases b with
        | true =>
          simp only [if_true] at hi
          cases eb : balance (node d l r' h) <;> simp [eb] at hi
        | false =>
          simp at hi
          rw [← hi, ihr r' e]

theorem insert_spec (t t' : TreeNode α) (v : α) (b : Bool) (ho : Ordered t)
    (hi : insert t v = some (t', b)) :
    (b = true ↔ v ∉ in_order t) ∧
    (b = true → in_order t' = List.orderedInsert (· ≤ ·) v (in_order t)) := by
  induction t generalizing t' b with
  | nil =>
    simp only [insert, Option.some.injEq, Prod.mk.injEq] at hi
    obtain ⟨rfl, rfl⟩ := hi
    simp
  | node d l r h ihl ihr =>
    obtain ⟨o1, o2, ol, or⟩ := ho
    rw [insert_node_eq] at hi
    split_ifs at hi with c1 c2
    · simp only [Option.some.injEq, Prod.mk.injEq] at hi
      obtain ⟨rfl, rfl⟩ := hi
      simp [c1]
    · have hr : v ∉ in_order r := fun hm => lt_asymm c2 (o2 v hm)
      cases e : insert l v with
      | none => rw [e] at hi; simp at hi
      | some p =>
        obtain ⟨l', b'⟩ := p
        rw [e] at hi
        obtain ⟨s1, s2⟩ := ihl l' b' ol e
        cases b' with
        | true =>
          simp only [if_true] at hi
          cases eb : balance (node d l' r h) with
          | none => simp [eb] at hi
          | some t'' =>
            simp only [eb, Option.map_some', Option.some.injEq, Prod.mk.injEq] at hi
            obtain ⟨rfl, rfl⟩ := hi
            have hl : v ∉ in_order l := s1.mp rfl
            refine ⟨by simp [hl, hr, c1], fun _ => ?_⟩
            rw [balance_in_order _ _ eb, in_order_cons, in_order_cons, s2 rfl,
              orderedInsert_append_left v d _ _ (le_of_lt c2)]
        | false =>
          simp only [Bool.false_eq_true, if_false, Option.some.injEq, Prod.mk.injEq] at hi
          obtain ⟨rfl, rfl⟩ := hi
          have hl : ¬ v ∉ in_order l := fun hn => Bool.false_ne_true (s1.mpr hn)
          simp only [not_not] at hl
          simp [hl]
    · have c3 : d < v := lt_of_le_of_ne (not_lt.mp c2) (Ne.symm c1)
      have hl : v ∉ in_order l := fun hm => lt_asymm c3 (o1 v hm)
      cases e : insert r v with
      | none => rw [e] at hi; simp at hi
      | some p =>
        obtain ⟨r', b'⟩ := p
        rw [e] at hi
        obtain ⟨s1, s2⟩ := ihr r' b' or e
        cases b' with
        | true =>
          simp only [if_true] at hi
          cases eb : balance (node d l r' h) with
          | none => simp [eb] at hi
          | some t'' =>
            simp only [eb, Option.map_some', Option.some.injEq, Prod.mk.injEq] at hi
            obtain ⟨rfl, rfl⟩ := hi
            have hr : v ∉ in_order r := s1.mp rfl
            refine ⟨by simp [hl, hr, c1], fun _ => ?_⟩
            rw [balance_in_order _ _ eb, in_order_cons, in_order_cons, s2 rfl,
              orderedInsert_append_right v d _ _ (fun x hx => lt_trans (o1 x hx) c3) c3]
        | false =>
          simp only [Bool.false_eq_true, if_false, Option.some.injEq, Prod.mk.injEq] at hi
          obtain ⟨rfl, rfl⟩ := hi
          have hr : ¬ v ∉ in_order r := fun hn => Bool.false_ne_true (s1.mpr hn)
          simp only [not_not] at hr
          simp [hr]

theorem insert_inv (t t' : TreeNode α) (v : α) (b : Bool) (ht : Inv t)
    (hi : insert t v = some (t', b)) :
    Inv t' ∧ height t ≤ height t' ∧ height t' ≤ height t + 1 := by
  induction t generalizing t' b with
  | nil =>
    simp only [insert, Option.some.injEq, Prod.mk.injEq] at hi
    obtain ⟨rfl, rfl⟩ := hi
    simp [inv_node]
  | node d l r h ihl ihr =>
    have ht0 := ht
    obtain ⟨il, ir, e0, b1, b2⟩ := ht
    cases b with
    | false =>
      rw [insert_false _ _ _ hi]
      exact ⟨ht0, le_refl _, by omega⟩
    | true =>
      rw [insert_node_eq] at hi
      split_ifs at hi with c1 c2
      · simp at hi
      · cases e : insert l v with
        | none => rw [e] at hi; simp at hi
        | some p =>
          obtain ⟨l', b'⟩ := p
          rw [e] at hi
          obtain ⟨il', g1, g2⟩ := ihl l' b' il e
          cases b' with
          | false => simp at hi
          | true =>
            simp only [if_true] at hi
            obtain ⟨t'', eb, it, k1, k2, k3⟩ :=
              balance_inv d l' r h il' ir (by omega) (by omega)
            have k4 : -1 ≤ height l' - height r → height l' - height r ≤ 1 →
                height t'' = 1 + Max.max (height l') (height r) :=
              fun a1 a2 => by rw [k3 a1 a2, height_node]
            simp only [eb, Option.map_some', Option.some.injEq, Prod.mk.injEq, and_true] at hi
            subst hi
            refine ⟨it, ?_, ?_⟩ <;> simp only [height_node] <;> omega
      · cases e : insert r v with
        | none => rw [e] at hi; simp at hi
        | some p =>
          obtain ⟨r', b'⟩ := p
          rw [e] at hi
          obtain ⟨ir', g1, g2⟩ := ihr r' b' ir e
          cases b' with
          | false => simp at hi
          | true =>
            simp only [if_true] at hi
            obtain ⟨t'', eb, it, k1, k2, k3⟩ :=
              balance_inv d l r' h il ir' (by omega) (by omega)
            have k4 : -1 ≤ height l - height r' → height l - height r' ≤ 1 →
                height t'' = 1 + Max.max (height l) (height r') :=
              fun a1 a2 => by rw [k3 a1 a2, height_node]
            simp only [eb, Option.map_some', Option.some.injEq, Prod.mk.injEq, and_true] at hi
            subst hi
            refine ⟨it, ?_, ?_⟩ <;> simp only [height_node] <;> omega

/-! ## Remove -/

theorem min_spec (d : α) (l r : TreeNode α) (h : Int) :
    ∃ s sr sh tl, TreeNode.min (node d l r h) = node s nil sr sh ∧
      in_order (node d l r h) = s :: tl := by
  induction l generalizing d r h with
  | nil => exact ⟨d, r, h, in_order r, rfl, by simp⟩
  | node ld ll lr lh ihl _ =>
    obtain ⟨s, sr, sh, tl, e1, e2⟩ := ihl ld lr lh
    refine ⟨s, sr, sh, tl ++ d :: in_order r, ?_, ?_⟩
    · rw [TreeNode.min]; exact e1
    · rw [in_order_cons, e2]; simp

theorem remove_node_eq (d : α) (l r : TreeNode α) (h : Int) (v : α) :
    remove (node d l r h) v =
      if v < d then
        match remove l v with
        | none => none
        | some (l', removed) =>
          if removed then (balance (node d l' r h)).map (fun t => (t, true))
          else some (node d l' r h, false)
      else if v > d then
        match remove r v with
        | none => none
        | some (r', removed) =>
          if removed then (balance (node d l r' h)).map (fun t => (t, true))
          else some (node d l r' h, false)
      else
        match l, r with
        | nil, _ => (balance r).map (fun t => (t, true))
        | node _ _ _ _, nil => (balance l).map (fun t => (t, true))
        | node _ _ _ _, node _ _ _ _ =>
          match TreeNode.min r with
          | nil => none
          | node s _ _ _ =>
            match remove r s with
            | none => none
            | some (r', removed) =>
              if removed then (balance (node s l r' h)).map (fun t => (t, true))
              else some (node s l r' h, false) := by
  cases l <;> cases r <;> rfl

theorem remove_total (t : TreeNode α) (v : α) (ht : HeightsNonneg t) :
    ∃ t' b, remove t v = some (t', b) ∧ HeightsNonneg t' := by
  induction t generalizing v with
  | nil => exact ⟨_, _, rfl, trivial⟩
  | node d l r h ihl ihr =>
    obtain ⟨n0, nl, nr⟩ := ht
    rw [remove_node_eq]
    split_ifs with c1 c2
    · obtain ⟨l', b, e, nl'⟩ := ihl v nl
      rw [e]
      cases b with
      | false => exact ⟨_, _, rfl, n0, nl', nr⟩
      | true =>
        obtain ⟨t', e', nt'⟩ := balance_total d l' r h nl' nr
        simp only [if_true, e', Option.map_some']
        exact ⟨_, _, rfl, nt'⟩
    · obtain ⟨r', b, e, nr'⟩ := ihr v nr
      rw [e]
      cases b with
      | false => exact ⟨_, _, rfl, n0, nl, nr'⟩
      | true =>
        obtain ⟨t', e', nt'⟩ := balance_total d l r' h nl nr'
        simp only [if_true, e', Option.map_some']
        exact ⟨_, _, rfl, nt'⟩
    · cases l with
      | nil =>
        obtain ⟨t', e', nt'⟩ := balance_total_of r nr
        simp only [e', Option.map_some']
        exact ⟨_, _, rfl, nt'⟩
      | node ld ll lr lh =>
        cases r with
        | nil =>
          obtain ⟨t', e', nt'⟩ := balance_total_of (node ld ll lr lh) nl
          simp only [e', Option.map_some']
          exact ⟨_, _, rfl, nt'⟩
        | node rd rl rr rh =>
          obtain ⟨s, sr, sh, tl, e1, -⟩ := min_spec rd rl rr rh
          obtain ⟨r', b, e, nr'⟩ := ihr s nr
          simp only [e1, e]
          cases b with
          | false => exact ⟨_, _, rfl, n0, nl, nr'⟩
          | true =>
            obtain ⟨t', e', nt'⟩ := balance_total s (node ld ll lr lh) r' h nl nr'
            simp only [if_true, e', Option.map_some']
            exact ⟨_, _, rfl, nt'⟩

/-- Removing a value that does not occur returns `false` and leaves the slot as it was. -/
theorem remove_absent (t : TreeNode α) (v : α) (hv : v ∉ in_order t) :
    remove t v = some (t, false) := by
  induction t with
  | nil => rfl
  | node d l r h ihl ihr =>
    simp only [in_order_cons, List.mem_append, List.mem_cons, not_or] at hv
    obtain ⟨h1, h2, h3⟩ := hv
    rw [remove_node_eq]
    split_ifs with c1 c2
    · rw [ihl h1]; rfl
    · rw [ihr h3]; rfl
    · exact absurd (le_antisymm (not_lt.mp c2) (not_lt.mp c1)) h2

theorem remove_spec (t t' : TreeNode α) (v : α) (b : Bool) (ho : Ordered t)
    (hi : remove t v = some (t', b)) :
    (b = true ↔ v ∈ in_order t) ∧
    (b = true → in_order t' = (in_order t).erase v) := by
  induction t generalizing t' b v with
  | nil =>
    simp only [remove, Option.some.injEq, Prod.mk.injEq] at hi
    obtain ⟨rfl, rfl⟩ := hi
    simp
  | node d l r h ihl ihr =>
    obtain ⟨o1, o2, ol, or⟩ := ho
    have hdl : d ∉ in_order l := fun hm => lt_irrefl d (o1 d hm)
    rw [remove_node_eq] at hi
    split_ifs at hi with c1 c2
    · have hr : v ∉ in_order r := fun hm => lt_asymm c1 (o2 v hm)
      cases e : remove l v with
      | none => rw [e] at hi; simp at hi
      | some p =>
        obtain ⟨l', b'⟩ := p
        rw [e] at hi
        obtain ⟨s1, s2⟩ := ihl l' v b' ol e
        cases b' with
        | true =>
          simp only [if_true] at hi
          cases eb : balance (node d l' r h) with
          | none => simp [eb] at hi
          | some t'' =>
            simp only [eb, Option.map_some', Option.some.injEq, Prod.mk.injEq] at hi
            obtain ⟨rfl, rfl⟩ := hi
            have hl : v ∈ in_order l := s1.mp rfl
            refine ⟨by simp [hl], fun _ => ?_⟩
            rw [balance_in_order _ _ eb, in_order_cons, in_order_cons, s2 rfl,
              List.erase_append_left _ hl]
        | false =>
          simp only [Bool.false_eq_true, if_false, Option.some.injEq, Prod.mk.injEq] at hi
          obtain ⟨rfl, rfl⟩ := hi
          have hl : v ∉ in_order l := fun hn => Bool.false_ne_true (s1.mpr hn)
          simp [hl, hr, ne_of_lt c1]
    · have hl : v ∉ in_order l := fun hm => lt_asymm c2 (o1 v hm)
      cases e : remove r v with
      | none => rw [e] at hi; simp at hi
      | some p =>
        obtain ⟨r', b'⟩ := p
        rw [e] at hi
        obtain ⟨s1, s2⟩ := ihr r' v b' or e
        cases b' with
        | true =>
          simp only [if_true] at hi
          cases eb : balance (node d l r' h) with
          | none => simp [eb] at hi
          | some t'' =>
            simp only [eb, Option.map_some', Option.some.injEq, Prod.mk.injEq] at hi
            obtain ⟨rfl, rfl⟩ := hi
            have hr : v ∈ in_order r := s1.mp rfl
            refine ⟨by simp [hr], fun _ => ?_⟩
            rw [balance_in_order _ _ eb, in_order_cons, in_order_cons, s2 rfl,
              List.erase_append_right _ hl, List.erase_cons_tail]
            simpa using ne_of_lt c2
        | false =>
          simp only [Bool.false_eq_true, if_false, Option.some.injEq, Prod.mk.injEq] at hi
          obtain ⟨rfl, rfl⟩ := hi
          have hr : v ∉ in_order r := fun hn => Bool.false_ne_true (s1.mpr hn)
          simp [hl, hr, ne_of_gt c2]
    · have hvd : v = d := le_antisymm (not_lt.mp c2) (not_lt.mp c1)
      subst hvd
      cases l with
      | nil =>
        cases eb : balance r with
        | none => simp [eb] at hi
        | some t'' =>
          simp only [eb, Option.map_some', Option.some.injEq, Prod.mk.injEq] at hi
          obtain ⟨rfl, rfl⟩ := hi
          refine ⟨by simp, fun _ => ?_⟩
          rw [balance_in_order _ _ eb]
          simp
      | node ld ll lr lh =>
        cases r with
        | nil =>
          cases eb : balance (node ld ll lr lh) with
          | none => simp [eb] at hi
          | some t'' =>
            simp only [eb, Option.map_some', Option.some.injEq, Prod.mk.injEq] at hi
            obtain ⟨rfl, rfl⟩ := hi
            refine ⟨by simp, fun _ => ?_⟩
            rw [balance_in_order _ _ eb, in_order_cons (d := v), in_order_nil,
              List.erase_append_right _ hdl]
            simp
        | node rd rl rr rh =>
          obtain ⟨s, sr, sh, tl, e1, e2⟩ := min_spec rd rl rr rh
          simp only [e1] at hi
          cases e : remove (node rd rl rr rh) s with
          | none => rw [e] at hi; simp at hi
          | some p =>
            obtain ⟨r', b'⟩ := p
            rw [e] at hi
            obtain ⟨s1, s2⟩ := ihr r' s b' or e
            have hb' : b' = true := s1.mpr (by rw [e2]; exact List.mem_cons_self _ _)
            subst hb'
            simp only [if_true] at hi
            cases eb : balance (node s (node ld ll lr lh) r' h) with
            | none => simp [eb] at hi
            | some t'' =>
              simp only [eb, Option.map_some', Option.some.injEq, Prod.mk.injEq] at hi
              obtain ⟨rfl, rfl⟩ := hi
              refine ⟨by simp, fun _ => ?_⟩
              rw [balance_in_order _ _ eb, in_order_cons (d := s), s2 rfl,
                in_order_cons (d := v), List.erase_append_right _ hdl, e2]
              simp

theorem remove_inv (t t' : TreeNode α) (v : α) (b : Bool) (ht : Inv t) (ho : Ordered t)
    (hi : remove t v = some (t', b)) :
    Inv t' ∧ height t - 1 ≤ height t' ∧ height t' ≤ height t := by
  induction t generalizing t' b v with
  | nil =>
    simp only [remove, Option.some.injEq, Prod.mk.injEq] at hi
    obtain ⟨rfl, rfl⟩ := hi
    simp
  | node d l r h ihl ihr =>
    have ht0 := ht
    have ho0 := ho
    obtain ⟨il, ir, e0, b1, b2⟩ := ht
    obtain ⟨o1, o2, ol, or⟩ := ho
    have gl := il.height_ge
    have gr := ir.height_ge
    cases b with
    | false =>
      have hv : v ∉ in_order (node d l r h) := fun hm =>
        Bool.false_ne_true ((remove_spec _ _ _ _ ho0 hi).1.mpr hm)
      rw [remove_absent _ _ hv] at hi
      simp only [Option.some.injEq, Prod.mk.injEq, and_true] at hi
      subst hi
      exact ⟨ht0, by omega, le_refl _⟩
    | true =>
      rw [remove_node_eq] at hi
      split_ifs at hi with c1 c2
      · cases e : remove l v with
        | none => rw [e] at hi; simp at hi
        | some p =>
          obtain ⟨l', b'⟩ := p
          rw [e] at hi
          obtain ⟨il', g1, g2⟩ := ihl l' v b' il ol e
          cases b' with
          | false => simp at hi
          | true =>
            simp only [if_true] at hi
            obtain ⟨t'', eb, it, k1, k2, k3⟩ :=
              balance_inv d l' r h il' ir (by omega) (by omega)
            have k4 : -1 ≤ height l' - height r → height l' - height r ≤ 1 →
                height t'' = 1 + Max.max (height l') (height r) :=
              fun a1 a2 => by rw [k3 a1 a2, height_node]
            simp only [eb, Option.map_some', Option.some.injEq, Prod.mk.injEq, and_true] at hi
            subst hi
            refine ⟨it, ?_, ?_⟩ <;> simp only [height_node] <;> omega
      · cases e : remove r v with
        | none => rw [e] at hi; simp at hi
        | some p =>
          obtain ⟨r', b'⟩ := p
          rw [e] at hi
          obtain ⟨ir', g1, g2⟩ := ihr r' v b' ir or e
          cases b' with
          | false => simp at hi
          | true =>
            simp only [if_true] at hi
            obtain ⟨t'', eb, it, k1, k2, k3⟩ :=
              balance_inv d l r' h il ir' (by omega) (by omega)
            have k4 : -1 ≤ height l - height r' → height l - height r' ≤ 1 →
                height t'' = 1 + Max.max (height l) (height r') :=
              fun a1 a2 => by rw [k3 a1 a2, height_node]
            simp only [eb, Option.map_some', Option.some.injEq, Prod.mk.injEq, and_true] at hi
            subst hi
            refine ⟨it, ?_, ?_⟩ <;> simp only [height_node] <;> omega
      · cases l with
        | nil =>
          simp only [balance_of_inv r ir, Option.map_some', Option.some.injEq, Prod.mk.injEq,
            and_true] at hi
          subst hi
          simp only [height_nil, height_node] at *
          exact ⟨ir, by omega, by omega⟩
        | node ld ll lr lh =>
          cases r with
          | nil =>
            simp only [balance_of_inv _ il, Option.map_some', Option.some.injEq,
              Prod.mk.injEq, and_true] at hi
            subst hi
            simp only [height_nil, height_node] at *
            exact ⟨il, by omega, by omega⟩
          | node rd rl rr rh =>
            obtain ⟨s, sr, sh, tl, e1, e2⟩ := min_spec rd rl rr rh
            simp only [e1] at hi
            cases e : remove (node rd rl rr rh) s with
            | none => rw [e] at hi; simp at hi
            | some p =>
              obtain ⟨r', b'⟩ := p
              rw [e] at hi
              obtain ⟨ir', g1, g2⟩ := ihr r' s b' ir or e
              cases b' with
              | false => simp at hi
              | true =>
                simp only [if_true] at hi
                obtain ⟨t'', eb, it, k1, k2, k3⟩ :=
                  balance_inv s (node ld ll lr lh) r' h il ir' (by omega) (by omega)
                have k4 : -1 ≤ height (node ld ll lr lh) - height r' →
                    height (node ld ll lr lh) - height r' ≤ 1 →
                    height t'' = 1 + Max.max (height (node ld ll lr lh)) (height r') :=
                  fun a1 a2 => by rw [k3 a1 a2, height_node]
                simp only [eb, Option.map_some', Option.some.injEq, Prod.mk.injEq,
                  and_true] at hi
                subst hi
                refine ⟨it, ?_, ?_⟩ <;> simp only [height_node] at * <;> omega

/-! ## From the working invariant to the stated invariants -/

theorem Inv.realHeight_eq : ∀ {t : TreeNode α}, Inv t → realHeight t = height t
  | nil, _ => rfl
  | node _ l r h, hi => by
    rw [realHeight_node, Inv.realHeight_eq hi.1, Inv.realHeight_eq hi.2.1, height_node]
    exact hi.2.2.1.symm

theorem Inv.coherent : ∀ {t : TreeNode α}, Inv t → Coherent t
  | nil, _ => trivial
  | node _ l r h, hi => ⟨hi.2.2.1, Inv.coherent hi.1, Inv.coherent hi.2.1⟩

theorem Inv.balanced : ∀ {t : TreeNode α}, Inv t → Balanced t
  | nil, _ => trivial
  | node _ l r h, hi => by
    refine ⟨?_, Inv.balanced hi.1, Inv.balanced hi.2.1⟩
    rw [Inv.realHeight_eq hi.1, Inv.realHeight_eq hi.2.1, abs_le]
    exact ⟨hi.2.2.2.1, hi.2.2.2.2⟩

/-- The diagnostic computes the structural balance predicate and the structural height. -/
theorem is_balanced_node_eq (t : TreeNode α) :
    is_balanced_node t = (decide (Balanced t), realHeight t) := by
  induction t with
  | nil => simp [is_balanced_node]
  | node d l r h ihl ihr =>
    simp only [is_balanced_node, ihl, ihr, realHeight_node, balanced_node, Prod.mk.injEq,
      and_true]
    by_cases h1 : Balanced l <;> by_cases h2 : Balanced r <;>
      by_cases h3 : |realHeight l - realHeight r| ≤ 1 <;> simp [h1, h2, h3]

theorem is_balanced_iff (t : TreeNode α) : is_balanced t = true ↔ Balanced t := by
  simp [is_balanced, is_balanced_node_eq]

/-! ## Sequences of calls -/

theorem step_inv (t : TreeNode α) (op : Op α) (ht : Inv t) (ho : Ordered t) :
    ∃ t', step t op = some t' ∧ Inv t' ∧ Ordered t' ∧
      ∀ s : Finset α, (∀ x, x ∈ in_order t ↔ x ∈ s) →
        ∀ x, x ∈ in_order t' ↔ x ∈ applyOp s op := by
  have hs := (ordered_iff_sorted t).mp ho
  cases op with
  | insert v =>
    obtain ⟨t', b, e, -⟩ := insert_total t v ht.heightsNonneg
    obtain ⟨i1, -, -⟩ := insert_inv t t' v b ht e
    obtain ⟨s1, s2⟩ := insert_spec t t' v b ho e
    refine ⟨t', by simp [step, e], i1, ?_, ?_⟩
    · cases b with
      | false => rw [insert_false _ _ _ e]; exact ho
      | true =>
        rw [ordered_iff_sorted, s2 rfl]
        exact sorted_orderedInsert v _ hs (s1.mp rfl)
    · intro s hm x
      cases b with
      | false =>
        have hv : v ∈ in_order t := by
          by_contra hn
          exact Bool.false_ne_true (s1.mpr hn)
        rw [insert_false _ _ _ e, hm]
        simp only [applyOp, Finset.mem_insert]
        constructor
        · exact Or.inr
        · rintro (rfl | hx)
          · exact (hm x).mp hv
          · exact hx
      | true =>
        rw [s2 rfl, List.mem_orderedInsert, hm]
        simp [applyOp]
  | remove v =>
    obtain ⟨t', b, e, -⟩ := remove_total t v ht.heightsNonneg
    obtain ⟨i1, -, -⟩ := remove_inv t t' v b ht ho e
    obtain ⟨s1, s2⟩ := remove_spec t t' v b ho e
    cases b with
    | false =>
      have hv : v ∉ in_order t := fun hn => Bool.false_ne_true (s1.mpr hn)
      rw [remove_absent _ _ hv] at e
      simp only [Option.some.injEq, Prod.mk.injEq, and_true] at e
      subst e
      refine ⟨t, by simp [step, remove_absent _ _ hv], ht, ho, ?_⟩
      intro s hm x
      rw [hm]
      simp only [applyOp, Finset.mem_erase]
      constructor
      · intro hx
        exact ⟨fun hxv => hv (by rw [← hxv]; exact (hm x).mpr hx), hx⟩
      · exact fun hx => hx.2
    | true =>
      refine ⟨t', by simp [step, e], i1, ?_, ?_⟩
      · rw [ordered_iff_sorted, s2 rfl]
        exact List.Pairwise.erase v hs
      · intro s hm x
        have hnd : (in_order t).Nodup := hs.imp ne_of_lt
        rw [s2 rfl, hnd.mem_erase_iff, hm]
        simp [applyOp]

theorem run_inv (ops : List (Op α)) (t : TreeNode α) (ht : Inv t) (ho : Ordered t) :
    ∃ t', run t ops = some t' ∧ Inv t' ∧ Ordered t' ∧
      ∀ s : Finset α, (∀ x, x ∈ in_order t ↔ x ∈ s) →
        ∀ x, x ∈ in_order t' ↔ x ∈ ops.foldl applyOp s := by
  induction ops generalizing t with
  | nil => exact ⟨t, rfl, ht, ho, fun s hm => hm⟩
  | cons op ops ih =>
    obtain ⟨t1, e1, i1, o1, m1⟩ := step_inv t op ht ho
    obtain ⟨t2, e2, i2, o2, m2⟩ := ih t1 i1 o1
    refine ⟨t2, by simp [run, e1, e2], i2, o2, ?_⟩
    intro s hm
    exact m2 (applyOp s op) (m1 s hm)

theorem run_nil_inv (ops : List (Op α)) :
    ∃ t, run nil ops = some t ∧ Inv t ∧ Ordered t ∧
      ∀ x, x ∈ in_order t ↔ x ∈ values ops := by
  obtain ⟨t, e, i, o, m⟩ := run_inv ops (nil : TreeNode α) trivial trivial
  exact ⟨t, e, i, o, m ∅ (by simp)⟩

theorem Reachable.inv {t : TreeNode α} (hr : Reachable t) : Inv t ∧ Ordered t := by
  obtain ⟨ops, e⟩ := hr
  obtain ⟨t', e', i, o, -⟩ := run_nil_inv ops
  rw [e] at e'
  cases e'
  exact ⟨i, o⟩

theorem exists_split_cons (op : Op α) (ops : List (Op α)) (x : α) :
    (∃ pre post, op :: ops = pre ++ Op.insert x :: post ∧ Op.remove x ∉ post) ↔
      (op = Op.insert x ∧ Op.remove x ∉ ops) ∨
      ∃ pre post, ops = pre ++ Op.insert x :: post ∧ Op.remove x ∉ post := by
  constructor
  · rintro ⟨pre, post, e, hp⟩
    cases pre with
    | nil =>
      simp only [List.nil_append, List.cons.injEq] at e
      exact Or.inl ⟨e.1, e.2 ▸ hp⟩
    | cons a pre =>
      simp only [List.cons_append, List.cons.injEq] at e
      exact Or.inr ⟨pre, post, e.2, hp⟩
  · rintro (⟨rfl, hp⟩ | ⟨pre, post, rfl, hp⟩)
    · exact ⟨[], ops, rfl, hp⟩
    · exact ⟨op :: pre, post, rfl, hp⟩

/-- A value is in the model set exactly when it was there at the start and never removed, or
some `insert` of it is followed by no `remove` of it. -/
theorem mem_foldl_applyOp (ops : List (Op α)) (s : Finset α) (x : α) :
    x ∈ ops.foldl applyOp s ↔
      (x ∈ s ∧ Op.remove x ∉ ops) ∨
      ∃ pre post, ops = pre ++ Op.insert x :: post ∧ Op.remove x ∉ post := by
  induction ops generalizing s with
  | nil => simp
  | cons op ops ih =>
    rw [List.foldl_cons, ih, exists_split_cons]
    cases op with
    | insert v =>
      simp only [applyOp, Finset.mem_insert, List.mem_cons, Op.insert.injEq, not_or,
        reduceCtorEq, not_false_eq_true, true_and]
      constructor
      · rintro (⟨rfl | h1, h2⟩ | h)
        · exact Or.inr (Or.inl ⟨rfl, h2⟩)
        · exact Or.inl ⟨h1, h2⟩
        · exact Or.inr (Or.inr h)
      · rintro (⟨h1, h2⟩ | ⟨rfl, h2⟩ | h)
        · exact Or.inl ⟨Or.inr h1, h2⟩
        · exact Or.inl ⟨Or.inl rfl, h2⟩
        · exact Or.inr h
    | remove v =>
      simp only [applyOp, Finset.mem_erase, List.mem_cons, Op.remove.injEq, not_or,
        reduceCtorEq, false_and, false_or]
      constructor
      · rintro (⟨⟨h0, h1⟩, h2⟩ | h)
        · exact Or.inl ⟨h1, h0, h2⟩
        · exact Or.inr h
      · rintro (⟨h1, h0, h2⟩ | h)
        · exact Or.inl ⟨⟨h0, h1⟩, h2⟩
        · exact Or.inr h

theorem mem_values_iff (ops : List (Op α)) (x : α) :
    x ∈ values ops ↔
      ∃ pre post, ops = pre ++ Op.insert x :: post ∧ Op.remove x ∉ post := by
  simp [values, mem_foldl_applyOp]

theorem eq_sort_of_sorted (l : List α) (s : Finset α) (hs : l.Sorted (· < ·))
    (hm : ∀ x, x ∈ l ↔ x ∈ s) : l = s.sort (· ≤ ·) := by
  have hnd : l.Nodup := hs.imp ne_of_lt
  have e : l.toFinset = s := by
    ext x
    rw [List.mem_toFinset, hm]
  rw [← e]
  exact ((List.toFinset_sort (· ≤ ·) hnd).mpr (hs.imp le_of_lt)).symm

/-! ## Claims -/

/-- C1. After every finite sequence of `insert` / `remove` calls on an initially empty tree the
calls all return, every node of the resulting tree has structural child heights that differ by
at most one, and `is_balanced()` returns `true`. -/
theorem C1_balance_invariant_preserved (ops : List (Op α)) :
    ∃ t, run nil ops = some t ∧ Balanced t ∧ is_balanced t = true := by
  obtain ⟨t, e, i, -, -⟩ := run_nil_inv ops
  exact ⟨t, e, i.balanced, (is_balanced_iff t).mpr i.balanced⟩

/-- C2. After every finite sequence of `insert` / `remove` calls on an initially empty tree,
`in_order()` is strictly increasing, the ordering invariant holds at every node, and the
traversal is exactly the sorted list of the values currently stored: those for which some
`insert` is followed by no `remove`. -/
theorem C2_ordering_law (ops : List (Op α)) :
    ∃ t, run nil ops = some t ∧ (in_order t).Sorted (· < ·) ∧ Ordered t ∧
      in_order t = (values ops).sort (· ≤ ·) ∧
      ∀ x, x ∈ in_order t ↔
        ∃ pre post, ops = pre ++ Op.insert x :: post ∧ Op.remove x ∉ post := by
  obtain ⟨t, e, -, o, m⟩ := run_nil_inv ops
  have hs := (ordered_iff_sorted t).mp o
  exact ⟨t, e, hs, o, eq_sort_of_sorted _ _ hs m, fun x => (m x).trans (mem_values_iff ops x)⟩

theorem insert_ordered (t t' : TreeNode α) (v : α) (b : Bool) (ho : Ordered t)
    (hi : insert t v = some (t', b)) : Ordered t' := by
  obtain ⟨s1, s2⟩ := insert_spec t t' v b ho hi
  cases b with
  | false => rw [insert_false _ _ _ hi]; exact ho
  | true =>
    rw [ordered_iff_sorted, s2 rfl]
    exact sorted_orderedInsert v _ ((ordered_iff_sorted t).mp ho) (s1.mp rfl)

/-- Inserting a value that occurs returns `false` and leaves the slot as it was. -/
theorem insert_present (t : TreeNode α) (v : α) (ho : Ordered t) (hn : HeightsNonneg t)
    (hv : v ∈ in_order t) : insert t v = some (t, false) := by
  obtain ⟨t', b, e, -⟩ := insert_total t v hn
  obtain ⟨s1, -⟩ := insert_spec t t' v b ho e
  cases b with
  | true => exact absurd hv (s1.mp rfl)
  | false => rw [e, insert_false _ _ _ e]

theorem contain_iff (t : TreeNode α) (v : α) (ho : Ordered t) :
    contain t v = true ↔ v ∈ in_order t := by
  induction t with
  | nil => simp [contain]
  | node d l r h ihl ihr =>
    obtain ⟨o1, o2, ol, or⟩ := ho
    rw [contain]
    split_ifs with c1 c2
    · simp [c1]
    · have hr : v ∉ in_order r := fun hm => lt_asymm c2 (o2 v hm)
      rw [ihl ol]
      simp [c1, hr]
    · have c3 : d < v := lt_of_le_of_ne (not_lt.mp c2) (Ne.symm c1)
      have hl : v ∉ in_order l := fun hm => lt_asymm c3 (o1 v hm)
      rw [ihr or]
      simp [c1, hl]

/-- C3. For every AVL tree `t`, that is every tree the public interface builds from the empty
tree, the ordering invariant holds, and for every value `v`: `insert(v)` returns; it returns
`true` exactly when `v` does not occur in `in_order()`; and when it returns `true`, the new
`in_order()` is the old one with `v` placed at its sorted position: strictly increasing, with
value set the old set plus `v`. -/
theorem C3_insert_contract (t : TreeNode α) (v : α) (hr : Reachable t) :
    Ordered t ∧
    ∃ t' b, insert t v = some (t', b) ∧ (b = true ↔ v ∉ in_order t) ∧
      (b = true →
        in_order t' = List.orderedInsert (· ≤ ·) v (in_order t) ∧
        (in_order t').Sorted (· < ·) ∧
        ∀ x, x ∈ in_order t' ↔ x = v ∨ x ∈ in_order t) := by
  obtain ⟨hi, ho⟩ := hr.inv
  obtain ⟨t', b, e, -⟩ := insert_total t v hi.heightsNonneg
  obtain ⟨s1, s2⟩ := insert_spec t t' v b ho e
  refine ⟨ho, t', b, e, s1, fun hb => ⟨s2 hb, ?_, ?_⟩⟩
  · exact (ordered_iff_sorted t').mp (insert_ordered t t' v b ho e)
  · intro x
    rw [s2 hb, List.mem_orderedInsert]

/-- C3, instance: inserting 6 into the tree built from 5, 3, 8, 1, 4, 7, 9; the call rotates
nothing and returns `true`. -/
theorem C3_insert_contract_witness :
    Reachable sample ∧
    insert sample 6 = some
      (node 5 (node 3 (node 1 nil nil 0) (node 4 nil nil 0) 1)
        (node 8 (node 7 (node 6 nil nil 0) nil 1) (node 9 nil nil 0) 2) 3, true) ∧
    Ordered sample ∧
    ∃ t' b, insert sample 6 = some (t', b) ∧ (b = true ↔ (6 : Int) ∉ in_order sample) ∧
      (b = true →
        in_order t' = List.orderedInsert (· ≤ ·) 6 (in_order sample) ∧
        (in_order t').Sorted (· < ·) ∧
        ∀ x, x ∈ in_order t' ↔ x = 6 ∨ x ∈ in_order sample) :=
  ⟨⟨sampleOps, by decide⟩, by decide,
    C3_insert_contract sample 6 ⟨sampleOps, by decide⟩⟩

/-- C4. For every AVL tree `t`, that is every tree the public interface builds from the empty
tree, the ordering invariant holds, and for every value `v`: `remove(v)` returns; it returns
`true` exactly when `v` occurs in `in_order()`; and when it returns `true`, the new
`in_order()` is the old one with the single occurrence of `v` erased. -/
theorem C4_remove_contract (t : TreeNode α) (v : α) (hr : Reachable t) :
    Ordered t ∧
    ∃ t' b, remove t v = some (t', b) ∧ (b = true ↔ v ∈ in_order t) ∧
      (b = true →
        in_order t' = (in_order t).erase v ∧
        (in_order t).count v = 1 ∧
        ∀ x, x ∈ in_order t' ↔ x ≠ v ∧ x ∈ in_order t) := by
  obtain ⟨hi, ho⟩ := hr.inv
  obtain ⟨t', b, e, -⟩ := remove_total t v hi.heightsNonneg
  obtain ⟨s1, s2⟩ := remove_spec t t' v b ho e
  have hnd : (in_order t).Nodup := ((ordered_iff_sorted t).mp ho).imp ne_of_lt
  refine ⟨ho, t', b, e, s1, fun hb => ⟨s2 hb, ?_, ?_⟩⟩
  · exact List.count_eq_one_of_mem hnd (s1.mp hb)
  · intro x
    rw [s2 hb, hnd.mem_erase_iff]

/-- C4, instance: removing the two-children root 5 of the tree built from
5, 3, 8, 1, 4, 7, 9. -/
theorem C4_remove_contract_witness :
    Reachable sample ∧
    remove sample 5 = some
      (node 7 (node 3 (node 1 nil nil 0) (node 4 nil nil 0) 1)
        (node 8 nil (node 9 nil nil 0) 1) 2, true) ∧
    Ordered sample ∧
    ∃ t' b, remove sample 5 = some (t', b) ∧ (b = true ↔ (5 : Int) ∈ in_order sample) ∧
      (b = true →
        in_order t' = (in_order sample).erase 5 ∧
        (in_order sample).count 5 = 1 ∧
        ∀ x, x ∈ in_order t' ↔ x ≠ 5 ∧ x ∈ in_order sample) :=
  ⟨⟨sampleOps, by decide⟩, by decide,
    C4_remove_contract sample 5 ⟨sampleOps, by decide⟩⟩

/-- C5. For every tree that satisfies the ordering invariant and every value `v`, `contain(v)`
(a total function to `Bool` that only reads the tree) is `true` exactly when `v` is an element
of `in_order()`. -/
theorem C5_contain_membership (t : TreeNode α) (v : α) (ho : Ordered t) :
    contain t v = true ↔ v ∈ in_order t :=
  contain_iff t v ho

/-- C5, instance: 7 is stored in the tree built from 5, 3, 8, 1, 4, 7, 9. -/
theorem C5_contain_membership_witness :
    Ordered sample ∧ (contain sample 7 = true ↔ (7 : Int) ∈ in_order sample) :=
  ⟨by decide, C5_contain_membership sample 7 (by decide)⟩

/-- C6. For every tree `t` reachable from empty: if `v` is stored in `t`, `insert(v)` returns
`false` and the tree afterwards is `t` itself (shape, values and cached heights), so the three
traversals are unchanged; and for any `v`, after one `insert(v)` a second `insert(v)` returns
`false` and leaves the tree of the first call. -/
theorem C6_duplicate_rejected (t : TreeNode α) (v : α) (hr : Reachable t) :
    (v ∈ in_order t →
      ∃ t', insert t v = some (t', false) ∧ t' = t ∧ in_order t' = in_order t ∧
        pre_order t' = pre_order t ∧ post_order t' = post_order t) ∧
    ∃ t1 b1, insert t v = some (t1, b1) ∧ insert t1 v = some (t1, false) := by
  obtain ⟨hi, ho⟩ := hr.inv
  constructor
  · intro hv
    exact ⟨t, insert_present t v ho hi.heightsNonneg hv, rfl, rfl, rfl, rfl⟩
  · obtain ⟨t1, b1, e, hn1⟩ := insert_total t v hi.heightsNonneg
    obtain ⟨s1, s2⟩ := insert_spec t t1 v b1 ho e
    refine ⟨t1, b1, e, insert_present t1 v (insert_ordered t t1 v b1 ho e) hn1 ?_⟩
    cases b1 with
    | true => rw [s2 rfl, List.mem_orderedInsert]; exact Or.inl rfl
    | false =>
      rw [insert_false _ _ _ e]
      by_contra hn
      exact Bool.false_ne_true (s1.mpr hn)

/-- C6, instance: the tree built from 5, 3, 8, 1, 4, 7, 9 and the value 4. -/
theorem C6_duplicate_rejected_witness :
    Reachable sample ∧
    ((4 : Int) ∈ in_order sample →
      ∃ t', insert sample 4 = some (t', false) ∧ t' = sample ∧
        in_order t' = in_order sample ∧
        pre_order t' = pre_order sample ∧ post_order t' = post_order sample) ∧
    ∃ t1 b1, insert sample 4 = some (t1, b1) ∧ insert t1 4 = some (t1, false) :=
  ⟨⟨sampleOps, by decide⟩, C6_duplicate_rejected sample 4 ⟨sampleOps, by decide⟩⟩

/-- C7. For every tree `t` reachable from empty and every value `v` not stored in `t`,
`remove(v)` returns `false` and the tree afterwards is `t` itself (shape, values and cached
heights), so the three traversals are unchanged. -/
theorem C7_remove_absent_noop (t : TreeNode α) (v : α) (hr : Reachable t)
    (hv : v ∉ in_order t) :
    ∃ t', remove t v = some (t', false) ∧ t' = t ∧ in_order t' = in_order t ∧
      pre_order t' = pre_order t ∧ post_order t' = post_order t :=
  ⟨t, remove_absent t v hv, rfl, rfl, rfl, rfl⟩

/-- C7, instance: the tree built from 5, 3, 8, 1, 4, 7, 9 and the absent value 6. -/
theorem C7_remove_absent_noop_witness :
    Reachable sample ∧ (6 : Int) ∉ in_order sample ∧
    ∃ t', remove sample 6 = some (t', false) ∧ t' = sample ∧
      in_order t' = in_order sample ∧
      pre_order t' = pre_order sample ∧ post_order t' = post_order sample :=
  ⟨⟨sampleOps, by decide⟩, by decide,
    C7_remove_absent_noop sample 6 ⟨sampleOps, by decide⟩ (by decide)⟩

/-- C8. For every tree `t` reachable from empty and every value `v` not stored in `t`,
`insert(v)` returns `true`, the following `remove(v)` returns `true`, and `in_order()` of the
final tree is `in_order()` of `t`. -/
theorem C8_insert_remove_inverse (t : TreeNode α) (v : α) (hr : Reachable t)
    (hv : v ∉ in_order t) :
    ∃ t1 t2, insert t v = some (t1, true) ∧ remove t1 v = some (t2, true) ∧
      in_order t2 = in_order t := by
  obtain ⟨hi, ho⟩ := hr.inv
  obtain ⟨t1, b1, e1, hn1⟩ := insert_total t v hi.heightsNonneg
  obtain ⟨s1, s2⟩ := insert_spec t t1 v b1 ho e1
  have hb1 : b1 = true := s1.mpr hv
  subst hb1
  have ho1 := insert_ordered t t1 v true ho e1
  obtain ⟨t2, b2, e2, -⟩ := remove_total t1 v hn1
  obtain ⟨r1, r2⟩ := remove_spec t1 t2 v b2 ho1 e2
  have hb2 : b2 = true := r1.mpr (by rw [s2 rfl, List.mem_orderedInsert]; exact Or.inl rfl)
  subst hb2
  refine ⟨t1, t2, e1, e2, ?_⟩
  rw [r2 rfl, s2 rfl, List.erase_orderedInsert_of_not_mem hv]

/-- C8, instance: the tree built from 5, 3, 8, 1, 4, 7, 9 and the absent value 6. -/
theorem C8_insert_remove_inverse_witness :
    Reachable sample ∧ (6 : Int) ∉ in_order sample ∧
    ∃ t1 t2, insert sample 6 = some (t1, true) ∧ remove t1 6 = some (t2, true) ∧
      in_order t2 = in_order sample :=
  ⟨⟨sampleOps, by decide⟩, by decide,
    C8_insert_remove_inverse sample 6 ⟨sampleOps, by decide⟩ (by decide)⟩

/-! ## Height bound -/

/-- A coherent balanced tree of height `k - 1` holds at least `fib (k + 2) - 1` values. -/
theorem Inv.fib_le_size : ∀ {t : TreeNode α}, Inv t →
    ∃ k : ℕ, height t = (k : Int) - 1 ∧ Nat.fib (k + 2) ≤ (in_order t).length + 1
  | nil, _ => ⟨0, by simp, by simp⟩
  | node d l r h, hi => by
    obtain ⟨il, ir, e, b1, b2⟩ := hi
    obtain ⟨kl, el, fl⟩ := Inv.fib_le_size il
    obtain ⟨kr, er, fr⟩ := Inv.fib_le_size ir
    rw [el, er] at e b1 b2
    simp only [in_order_cons, List.length_append, List.length_cons, height_node]
    rcases le_total kr kl with hk | hk
    · refine ⟨kl + 1, by push_cast; omega, ?_⟩
      have h1 : Nat.fib (kl + 1) ≤ Nat.fib (kr + 2) := Nat.fib_mono (by omega)
      have h2 : Nat.fib (kl + 1 + 2) = Nat.fib (kl + 1) + Nat.fib (kl + 2) := Nat.fib_add_two
      omega
    · refine ⟨kr + 1, by push_cast; omega, ?_⟩
      have h1 : Nat.fib (kr + 1) ≤ Nat.fib (kl + 2) := Nat.fib_mono (by omega)
      have h2 : Nat.fib (kr + 1 + 2) = Nat.fib (kr + 1) + Nat.fib (kr + 2) := Nat.fib_add_two
      omega

theorem pow_le_fib : ∀ k : ℕ, 21 ^ k ≤ 13 ^ k * Nat.fib (k + 2)
  | 0 => by simp
  | 1 => by decide
  | k + 2 => by
    have h0 := pow_le_fib k
    have h1 := pow_le_fib (k + 1)
    have e : Nat.fib (k + 2 + 2) = Nat.fib (k + 2) + Nat.fib (k + 1 + 2) := Nat.fib_add_two
    rw [e]
    have p1 : (21 : ℕ) ^ (k + 2) = 441 * 21 ^ k := by ring
    have p2 : (21 : ℕ) ^ (k + 1) = 21 * 21 ^ k := by ring
    have p3 : (13 : ℕ) ^ (k + 2) = 169 * 13 ^ k := by ring
    have p4 : (13 : ℕ) ^ (k + 1) = 13 * 13 ^ k := by ring
    rw [p2, p4] at h1
    rw [p1, p3]
    have p5 : 169 * 13 ^ k * (Nat.fib (k + 2) + Nat.fib (k + 1 + 2)) =
        169 * (13 ^ k * Nat.fib (k + 2)) + 13 * (13 * 13 ^ k * Nat.fib (k + 1 + 2)) := by ring
    rw [p5]
    omega

theorem two_pow_lt_size (k n : ℕ) (hf : Nat.fib (k + 2) ≤ n + 1) :
    2 ^ (20 * k) < (n + 2) ^ 29 := by
  have h1 : (21 ^ k) ^ 29 ≤ (13 ^ k * Nat.fib (k + 2)) ^ 29 :=
    Nat.pow_le_pow_left (pow_le_fib k) 29
  have h2 : (2 : ℕ) ^ 20 * 13 ^ 29 ≤ 21 ^ 29 := by norm_num
  have h3 : ((2 : ℕ) ^ 20 * 13 ^ 29) ^ k ≤ (21 ^ 29) ^ k := Nat.pow_le_pow_left h2 k
  have a1 : ((2 : ℕ) ^ 20) ^ k = 2 ^ (20 * k) := (pow_mul 2 20 k).symm
  have a2 : ((13 : ℕ) ^ 29) ^ k = (13 ^ k) ^ 29 := by rw [← pow_mul, ← pow_mul, mul_comm]
  have a3 : ((21 : ℕ) ^ 29) ^ k = (21 ^ k) ^ 29 := by rw [← pow_mul, ← pow_mul, mul_comm]
  rw [mul_pow, a1, a2, a3] at h3
  rw [mul_pow] at h1
  have h4 : (13 ^ k) ^ 29 * 2 ^ (20 * k) ≤ (13 ^ k) ^ 29 * Nat.fib (k + 2) ^ 29 := by
    rw [mul_comm]
    exact le_trans h3 h1
  have h5 : 2 ^ (20 * k) ≤ Nat.fib (k + 2) ^ 29 :=
    Nat.le_of_mul_le_mul_left h4 (by positivity)
  calc 2 ^ (20 * k) ≤ Nat.fib (k + 2) ^ 29 := h5
    _ ≤ (n + 1) ^ 29 := Nat.pow_le_pow_left hf 29
    _ < (n + 2) ^ 29 := Nat.pow_lt_pow_left (by omega) (by norm_num)

theorem lt_logb_of_fib_le (k n : ℕ) (hf : Nat.fib (k + 2) ≤ n + 1) :
    (k : ℝ) < 1.45 * Real.logb 2 ((n : ℝ) + 2) := by
  have h1 : ((2 : ℝ)) ^ (20 * k) < ((n : ℝ) + 2) ^ 29 := by
    exact_mod_cast two_pow_lt_size k n hf
  have h2 := Real.logb_lt_logb (b := 2) (by norm_num) (by positivity) h1
  rw [Real.logb_pow, Real.logb_pow, Real.logb_self_eq_one (by norm_num)] at h2
  push_cast at h2
  linarith

theorem Inv.height_bound {t : TreeNode α} (hi : Inv t) :
    height t ≤ ⌈(1.45 : ℝ) * Real.logb 2 (((in_order t).length : ℝ) + 2)⌉ - 1 := by
  obtain ⟨k, e, hf⟩ := hi.fib_le_size
  have h1 := lt_logb_of_fib_le k _ hf
  have h2 : (k : Int) < ⌈(1.45 : ℝ) * Real.logb 2 (((in_order t).length : ℝ) + 2)⌉ := by
    rw [Int.lt_ceil]
    exact_mod_cast h1
  omega

theorem Inv.cachedExact : ∀ {t : TreeNode α}, Inv t → CachedExact t
  | nil, _ => trivial
  | node d l r h, hi =>
    ⟨(Inv.realHeight_eq hi).symm, Inv.cachedExact hi.1, Inv.cachedExact hi.2.1⟩

/-- C9. After every finite sequence of `insert` / `remove` calls on an initially empty tree, the
tree holding `n` values has height (the cached height of the root, equal to the structural
height; `-1` when empty, `0` for a single node) at most `⌈1.45 · log₂(n + 2)⌉ - 1`. -/
theorem C9_height_bound (ops : List (Op α)) :
    ∃ t, run nil ops = some t ∧ realHeight t = height t ∧
      height t ≤ ⌈(1.45 : ℝ) * Real.logb 2 (((in_order t).length : ℝ) + 2)⌉ - 1 := by
  obtain ⟨t, e, i, -, -⟩ := run_nil_inv ops
  exact ⟨t, e, i.realHeight_eq, i.height_bound⟩

/-- C10. After every finite sequence of `insert` / `remove` calls on an initially empty tree,
every node's cached height equals `1 + max(height(left), height(right))` with an absent
subtree counted as `-1`, and equals the structural height of that node; a freshly created
leaf has cached height 0. -/
theorem C10_height_coherence (ops : List (Op α)) :
    (∃ t, run nil ops = some t ∧ Coherent t ∧ CachedExact t) ∧
    ∀ v : α, insert nil v = some (node v nil nil 0, true) := by
  obtain ⟨t, e, i, -, -⟩ := run_nil_inv ops
  exact ⟨⟨t, e, i.coherent, i.cachedExact⟩, fun _ => rfl⟩

/-! ## Scenarios -/

/-- C11. For all values `a < b < c`: inserting `a`, `b`, `c` in that order into the empty tree
returns `true` three times, the last call rebalancing the right chain `a, b, c` at the root
(single left rotation); inserting `c`, `a`, `b` returns `true` three times, the last call
rebalancing the zig-zag `c, a, b` at the root (left-right double rotation); both end in the tree
with root `b`, left child `a`, right child `c`, whose `pre_order()` is `[b, a, c]`, whose
`in_order()` is `[a, b, c]` and on which `is_balanced()` is `true`. -/
theorem C11_three_element_rotations (a b c : α) (hab : a < b) (hbc : b < c) :
    (∃ t1 t2, insert nil a = some (t1, true) ∧ insert t1 b = some (t2, true) ∧
      insert t2 c = some (node b (node a nil nil 0) (node c nil nil 0) 1, true) ∧
      balance (node a nil (node b nil (node c nil nil 0) 1) 1)
        = some (node b (node a nil nil 0) (node c nil nil 0) 1)) ∧
    (∃ t1 t2, insert nil c = some (t1, true) ∧ insert t1 a = some (t2, true) ∧
      insert t2 b = some (node b (node a nil nil 0) (node c nil nil 0) 1, true) ∧
      balance (node c (node a nil (node b nil nil 0) 1) nil 1)
        = some (node b (node a nil nil 0) (node c nil nil 0) 1)) ∧
    pre_order (node b (node a nil nil 0) (node c nil nil 0) 1) = [b, a, c] ∧
    in_order (node b (node a nil nil 0) (node c nil nil 0) 1) = [a, b, c] ∧
    is_balanced (node b (node a nil nil 0) (node c nil nil 0) 1) = true := by
  have hac : a < c := lt_trans hab hbc
  have n1 : ¬ b < a := not_lt_of_gt hab
  have n2 : ¬ c < b := not_lt_of_gt hbc
  have n3 : ¬ c < a := not_lt_of_gt hac
  have e1 : b ≠ a := ne_of_gt hab
  have e2 : c ≠ b := ne_of_gt hbc
  have e3 : c ≠ a := ne_of_gt hac
  have e4 : a ≠ c := ne_of_lt hac
  have e5 : b ≠ c := ne_of_lt hbc
  refine ⟨⟨node a nil nil 0, node a nil (node b nil nil 0) 1, rfl, ?_, ?_, ?_⟩,
    ⟨node c nil nil 0, node c (node a nil nil 0) nil 1, rfl, ?_, ?_, ?_⟩, ?_, ?_, ?_⟩
  · simp [insert, balance, e1, n1]
  · simp [insert, balance, e2, e3, n2, n3]
  · simp [balance]
  · simp [insert, balance, e4, hac]
  · simp [insert, balance, e5, e1, hbc, n1]
  · simp [balance]
  · simp [pre_order, pre_order_node]
  · simp
  · simp [is_balanced, is_balanced_node]

/-- C11, the scenario of the specification: 10, 20, 30 and 30, 10, 20. -/
theorem C11_three_element_rotations_witness :
    (10 : Int) < 20 ∧ (20 : Int) < 30 ∧
    (∃ t1 t2, insert nil (10 : Int) = some (t1, true) ∧ insert t1 20 = some (t2, true) ∧
      insert t2 30 = some (node 20 (node 10 nil nil 0) (node 30 nil nil 0) 1, true) ∧
      balance (node (10 : Int) nil (node 20 nil (node 30 nil nil 0) 1) 1)
        = some (node 20 (node 10 nil nil 0) (node 30 nil nil 0) 1)) ∧
    (∃ t1 t2, insert nil (30 : Int) = some (t1, true) ∧ insert t1 10 = some (t2, true) ∧
      insert t2 20 = some (node 20 (node 10 nil nil 0) (node 30 nil nil 0) 1, true) ∧
      balance (node (30 : Int) (node 10 nil (node 20 nil nil 0) 1) nil 1)
        = some (node 20 (node 10 nil nil 0) (node 30 nil nil 0) 1)) ∧
    pre_order (node (20 : Int) (node 10 nil nil 0) (node 30 nil nil 0) 1) = [20, 10, 30] ∧
    in_order (node (20 : Int) (node 10 nil nil 0) (node 30 nil nil 0) 1) = [10, 20, 30] ∧
    is_balanced (node (20 : Int) (node 10 nil nil 0) (node 30 nil nil 0) 1) = true :=
  ⟨by decide, by decide, C11_three_element_rotations 10 20 30 (by decide) (by decide)⟩

/-! ## The diagnostic -/

theorem sameShape_is_balanced_node (t t' : TreeNode α) (hs : SameShape t t') :
    is_balanced_node t' = is_balanced_node t := by
  induction t generalizing t' with
  | nil =>
    cases t' with
    | nil => rfl
    | node _ _ _ _ => exact absurd hs (fun h => h)
  | node d l r h ihl ihr =>
    cases t' with
    | nil => exact absurd hs (fun h => h)
    | node d' l' r' h' =>
      obtain ⟨h1, h2⟩ := hs
      simp only [is_balanced_node, ihl l' h1, ihr r' h2]

/-- C13. For every tree, whatever its cached heights, `is_balanced(node)` returns the pair
`(b, h)` where `h` is the structural height (`-1` when absent) and `b` is `true` exactly when
every node has structural child heights that differ by at most one; and a tree of the same shape
with other cached heights gets the same answer. -/
theorem C13_balance_diagnostic (t t' : TreeNode α) (hs : SameShape t t') :
    is_balanced_node t = (decide (Balanced t), realHeight t) ∧
    ((is_balanced_node t).1 = true ↔ Balanced t) ∧
    is_balanced_node t' = is_balanced_node t := by
  refine ⟨is_balanced_node_eq t, ?_, sameShape_is_balanced_node t t' hs⟩
  rw [is_balanced_node_eq]
  simp

/-- C13, instance: the three-node left chain with stale cached heights `0, 100, -5` and the
same chain with the heights `2, 1, 0`. -/
theorem C13_balance_diagnostic_witness :
    SameShape staleLeft (node 10 (node 5 (node 3 nil nil 0) nil 1) nil 2) ∧
    is_balanced_node staleLeft = (decide (Balanced staleLeft), realHeight staleLeft) ∧
    ((is_balanced_node staleLeft).1 = true ↔ Balanced staleLeft) ∧
    is_balanced_node (node 10 (node 5 (node 3 nil nil 0) nil 1) nil 2)
      = is_balanced_node staleLeft :=
  ⟨by decide,
    C13_balance_diagnostic staleLeft (node 10 (node 5 (node 3 nil nil 0) nil 1) nil 2)
      (by decide)⟩

/-! ## Rotation cases -/

theorem inv_iff (t : TreeNode α) : Inv t ↔ Coherent t ∧ Balanced t := by
  constructor
  · exact fun h => ⟨h.coherent, h.balanced⟩
  · rintro ⟨hc, hb⟩
    induction t with
    | nil => trivial
    | node d l r h ihl ihr =>
      obtain ⟨e, cl, cr⟩ := hc
      obtain ⟨b, bl, br⟩ := hb
      have il := ihl cl bl
      have ir := ihr cr br
      rw [il.realHeight_eq, ir.realHeight_eq, abs_le] at b
      exact ⟨il, ir, e, b.1, b.2⟩

/-- C15. For every node `y = (l, d, r)` whose subtrees carry cached heights within the range
where `int` arithmetic is exact (`HeightsInRange`; the node's own stale height is free), with
`hl`, `hr` the cached heights of its children:
(i) if `-1 ≤ hl - hr ≤ 1`, `balance` only sets the cached height to `1 + max(hl, hr)`;
(ii) if `hl - hr > 1` and the left child `(A, x, B)` has `height(A) ≥ height(B)`, the result is
`(A, x, (B, d, r))`; (iii) if `hl - hr > 1` and `height(A) < height(B)` with `B = (B1, z, B2)`,
the result is `((A, x, B1), z, (B2, d, r))`; (iv), (v) the mirror images when `hl - hr < -1`.
The cached heights of the rearranged nodes are recomputed from their new children, lowest
first, and the subtrees hanging below are the ones that were there, cached heights included. -/
theorem C15_rotation_cases (d : α) (l r : TreeNode α) (h : Int)
    (hlr : HeightsInRange l) (hrr : HeightsInRange r) :
    (-1 ≤ height l - height r → height l - height r ≤ 1 →
      balance (node d l r h) = some (node d l r (1 + Max.max (height l) (height r)))) ∧
    (∀ x A B hx, l = node x A B hx → hx - height r > 1 → height A ≥ height B →
      balance (node d l r h) =
        some (node x A (node d B r (1 + Max.max (height B) (height r)))
          (1 + Max.max (height A) (1 + Max.max (height B) (height r))))) ∧
    (∀ x A z B1 B2 hx hz, l = node x A (node z B1 B2 hz) hx → hx - height r > 1 →
      height A < hz →
      balance (node d l r h) =
        some (node z (node x A B1 (1 + Max.max (height A) (height B1)))
          (node d B2 r (1 + Max.max (height B2) (height r)))
          (1 + Max.max (1 + Max.max (height A) (height B1))
            (1 + Max.max (height B2) (height r))))) ∧
    (∀ x A B hx, r = node x A B hx → height l - hx < -1 → height B ≥ height A →
      balance (node d l r h) =
        some (node x (node d l A (1 + Max.max (height l) (height A))) B
          (1 + Max.max (height B) (1 + Max.max (height l) (height A))))) ∧
    (∀ x z A1 A2 B hx hz, r = node x (node z A1 A2 hz) B hx → height l - hx < -1 →
      height B < hz →
      balance (node d l r h) =
        some (node z (node d l A1 (1 + Max.max (height l) (height A1)))
          (node x A2 B (1 + Max.max (height A2) (height B)))
          (1 + Max.max (1 + Max.max (height l) (height A1))
            (1 + Max.max (height A2) (height B))))) := by
  refine ⟨?_, ?_, ?_, ?_, ?_⟩
  · intro h1 h2
    have c1 : ¬ height l - height r > 1 := by omega
    have c2 : ¬ height l - height r < -1 := by omega
    simp only [balance, c1, c2, if_false]
  · rintro x A B hx rfl h1 h2
    simp only [balance, height_node, h1, h2, if_true]
  · rintro x A z B1 B2 hx hz rfl h1 h2
    have c : ¬ height A ≥ hz := by omega
    simp only [balance, height_node, h1, c, if_true, if_false]
  · rintro x A B hx rfl h1 h2
    have c1 : ¬ height l - hx > 1 := by omega
    simp only [balance, height_node, h1, h2, c1, if_true, if_false]
  · rintro x z A1 A2 B hx hz rfl h1 h2
    have c1 : ¬ height l - hx > 1 := by omega
    have c : ¬ height B ≥ hz := by omega
    simp only [balance, height_node, h1, c, c1, if_true, if_false]

/-- C16. For every node whose two subtrees are coherent and balanced at all of their nodes and
whose child heights differ by at most 2, `balance` returns a subtree that is balanced and
coherent at every node, has the same `in_order()` as before, and has height `max(hl, hr)` or
`max(hl, hr) + 1`. -/
theorem C16_local_repair (d : α) (l r : TreeNode α) (h : Int)
    (hl : Coherent l ∧ Balanced l) (hr : Coherent r ∧ Balanced r)
    (hd : |height l - height r| ≤ 2) :
    ∃ t', balance (node d l r h) = some t' ∧ Balanced t' ∧ Coherent t' ∧
      in_order t' = in_order (node d l r h) ∧
      (height t' = Max.max (height l) (height r) ∨
        height t' = Max.max (height l) (height r) + 1) := by
  rw [abs_le] at hd
  obtain ⟨t', e, i, k1, k2, -⟩ :=
    balance_inv d l r h ((inv_iff l).mpr hl) ((inv_iff r).mpr hr) hd.1 hd.2
  refine ⟨t', e, i.balanced, i.coherent, balance_in_order _ _ e, ?_⟩
  omega

/-- C16, instance: the root slot right after 9 was inserted below 8 in the chain 7, 8. -/
theorem C16_local_repair_witness :
    (Coherent (nil : TreeNode Int) ∧ Balanced (nil : TreeNode Int)) ∧
    (Coherent (node (8 : Int) nil (node 9 nil nil 0) 1) ∧
      Balanced (node (8 : Int) nil (node 9 nil nil 0) 1)) ∧
    |height (nil : TreeNode Int) - height (node (8 : Int) nil (node 9 nil nil 0) 1)| ≤ 2 ∧
    ∃ t', balance (node (7 : Int) nil (node 8 nil (node 9 nil nil 0) 1) 1) = some t' ∧
      Balanced t' ∧ Coherent t' ∧
      in_order t' = in_order (node (7 : Int) nil (node 8 nil (node 9 nil nil 0) 1) 1) ∧
      (height t' = Max.max (height (nil : TreeNode Int))
          (height (node (8 : Int) nil (node 9 nil nil 0) 1)) ∨
        height t' = Max.max (height (nil : TreeNode Int))
          (height (node (8 : Int) nil (node 9 nil nil 0) 1)) + 1) :=
  ⟨by decide, by decide, by decide,
    C16_local_repair 7 nil (node 8 nil (node 9 nil nil 0) 1) 1 (by decide) (by decide)
      (by decide)⟩

/-- C15, instances of the five cases on three-node trees over `Int`: a balanced node, a left
chain, a left zig-zag, a right chain and a right zig-zag, each with its stale root height `0`. -/
theorem C15_rotation_cases_witness :
    HeightsInRange (node (2 : Int) (node 1 nil nil 0) nil 1) ∧
    HeightsInRange (node (1 : Int) nil (node 2 nil nil 0) 1) ∧
    HeightsInRange (node (2 : Int) nil (node 3 nil nil 0) 1) ∧
    HeightsInRange (node (3 : Int) (node 2 nil nil 0) nil 1) ∧
    balance (node (2 : Int) (node 1 nil nil 0) (node 3 nil nil 0) 0)
      = some (node 2 (node 1 nil nil 0) (node 3 nil nil 0) 1) ∧
    balance (node (3 : Int) (node 2 (node 1 nil nil 0) nil 1) nil 0)
      = some (node 2 (node 1 nil nil 0) (node 3 nil nil 0) 1) ∧
    balance (node (3 : Int) (node 1 nil (node 2 nil nil 0) 1) nil 0)
      = some (node 2 (node 1 nil nil 0) (node 3 nil nil 0) 1) ∧
    balance (node (1 : Int) nil (node 2 nil (node 3 nil nil 0) 1) 0)
      = some (node 2 (node 1 nil nil 0) (node 3 nil nil 0) 1) ∧
    balance (node (1 : Int) nil (node 3 (node 2 nil nil 0) nil 1) 0)
      = some (node 2 (node 1 nil nil 0) (node 3 nil nil 0) 1) :=
  ⟨by decide, by decide, by decide, by decide,
    (C15_rotation_cases (2 : Int) (node 1 nil nil 0) (node 3 nil nil 0) 0
      (by decide) (by decide)).1 (by decide) (by decide),
    (C15_rotation_cases (3 : Int) (node 2 (node 1 nil nil 0) nil 1) nil 0
      (by decide) (by decide)).2.1 2 (node 1 nil nil 0) nil 1 rfl (by decide) (by decide),
    (C15_rotation_cases (3 : Int) (node 1 nil (node 2 nil nil 0) 1) nil 0
      (by decide) (by decide)).2.2.1 1 nil 2 nil nil 1 0 rfl (by decide) (by decide),
    (C15_rotation_cases (1 : Int) nil (node 2 nil (node 3 nil nil 0) 1) 0
      (by decide) (by decide)).2.2.2.1 2 nil (node 3 nil nil 0) 1 rfl (by decide) (by decide),
    (C15_rotation_cases (1 : Int) nil (node 3 (node 2 nil nil 0) nil 1) 0
      (by decide) (by decide)).2.2.2.2 3 2 nil nil nil 1 0 rfl (by decide) (by decide)⟩

/-! ## Safety of the child accesses -/

/-- C18. For every non-empty tree whose present nodes all have a cached height of at least 0,
within the range where `int` arithmetic is exact (`HeightsInRange` on the two subtrees):
when `hl - hr > 1` the left child is present, and when moreover
`height(left.left) < height(left.right)` the left child's right child is present; symmetrically
on the right; so `balance` returns (its error branch is not taken).  Every height-coherent
tree is such a tree. -/
theorem C18_no_absent_child (d : α) (l r : TreeNode α) (h : Int)
    (hn : HeightsNonneg (node d l r h)) (hlr : HeightsInRange l) (hrr : HeightsInRange r) :
    (height l - height r > 1 →
      ∃ ld ll lr lh, l = node ld ll lr lh ∧
        (height ll < height lr → ∃ zd zl zr zh, lr = node zd zl zr zh)) ∧
    (height l - height r < -1 →
      ∃ rd rl rr rh, r = node rd rl rr rh ∧
        (height rr < height rl → ∃ zd zl zr zh, rl = node zd zl zr zh)) ∧
    (∃ t', balance (node d l r h) = some t') ∧
    ∀ t : TreeNode α, Coherent t → HeightsNonneg t := by
  obtain ⟨-, nl, nr⟩ := hn
  have gl := nl.height_ge_neg_one
  have gr := nr.height_ge_neg_one
  refine ⟨?_, ?_, ?_, fun t ht => coherent_heightsNonneg ht⟩
  · intro c
    cases l with
    | nil => simp only [height_nil] at c; omega
    | node ld ll lr lh =>
      refine ⟨ld, ll, lr, lh, rfl, fun c' => ?_⟩
      have gll := nl.2.1.height_ge_neg_one
      cases lr with
      | nil => simp only [height_nil] at c'; omega
      | node zd zl zr zh => exact ⟨zd, zl, zr, zh, rfl⟩
  · intro c
    cases r with
    | nil => simp only [height_nil] at c; omega
    | node rd rl rr rh =>
      refine ⟨rd, rl, rr, rh, rfl, fun c' => ?_⟩
      have grr := nr.2.2.height_ge_neg_one
      cases rl with
      | nil => simp only [height_nil] at c'; omega
      | node zd zl zr zh => exact ⟨zd, zl, zr, zh, rfl⟩
  · obtain ⟨t', e, -⟩ := balance_total d l r h nl nr
    exact ⟨t', e⟩

/-- C18, instance: the left zig-zag 3, 1, 2 with coherent child heights. -/
theorem C18_no_absent_child_witness :
    HeightsNonneg (node (3 : Int) (node 1 nil (node 2 nil nil 0) 1) nil 2) ∧
    HeightsInRange (node (1 : Int) nil (node 2 nil nil 0) 1) ∧
    HeightsInRange (nil : TreeNode Int) ∧
    (height (node (1 : Int) nil (node 2 nil nil 0) 1) - height (nil : TreeNode Int) > 1 →
      ∃ ld ll lr lh, node (1 : Int) nil (node 2 nil nil 0) 1 = node ld ll lr lh ∧
        (height ll < height lr → ∃ zd zl zr zh, lr = node zd zl zr zh)) ∧
    (height (node (1 : Int) nil (node 2 nil nil 0) 1) - height (nil : TreeNode Int) < -1 →
      ∃ rd rl rr rh, (nil : TreeNode Int) = node rd rl rr rh ∧
        (height rr < height rl → ∃ zd zl zr zh, rl = node zd zl zr zh)) ∧
    (∃ t', balance (node (3 : Int) (node 1 nil (node 2 nil nil 0) 1) nil 2) = some t') ∧
    ∀ t : TreeNode Int, Coherent t → HeightsNonneg t :=
  ⟨by decide, by decide, by decide,
    C18_no_absent_child 3 (node 1 nil (node 2 nil nil 0) 1) nil 2
      (by decide) (by decide) (by decide)⟩

/-! ## One call moves the height by at most one -/

/-- C19. For every tree that satisfies the ordering, balance and height-coherence invariants,
with height `h`: `insert(v)` returns, and when it returns `true` the new height is `h` or
`h + 1`; `remove(v)` returns, and when it returns `true` the new height is `h` or `h - 1`.
The heights are the cached ones, which equal the structural ones before and after. -/
theorem C19_height_step (t : TreeNode α) (v : α) (ho : Ordered t) (hb : Balanced t)
    (hc : Coherent t) :
    realHeight t = height t ∧
    (∃ t' b, insert t v = some (t', b) ∧ realHeight t' = height t' ∧
      (b = true → height t' = height t ∨ height t' = height t + 1)) ∧
    (∃ t' b, remove t v = some (t', b) ∧ realHeight t' = height t' ∧
      (b = true → height t' = height t ∨ height t' = height t - 1)) := by
  have hi : Inv t := (inv_iff t).mpr ⟨hc, hb⟩
  refine ⟨hi.realHeight_eq, ?_, ?_⟩
  · obtain ⟨t', b, e, -⟩ := insert_total t v hi.heightsNonneg
    obtain ⟨i', g1, g2⟩ := insert_inv t t' v b hi e
    exact ⟨t', b, e, i'.realHeight_eq, fun _ => by omega⟩
  · obtain ⟨t', b, e, -⟩ := remove_total t v hi.heightsNonneg
    obtain ⟨i', g1, g2⟩ := remove_inv t t' v b hi ho e
    exact ⟨t', b, e, i'.realHeight_eq, fun _ => by omega⟩

/-- C19, instance: the tree built from 5, 3, 8, 1, 4, 7, 9 and the value 4. -/
theorem C19_height_step_witness :
    Ordered sample ∧ Balanced sample ∧ Coherent sample ∧
    realHeight sample = height sample ∧
    (∃ t' b, insert sample 4 = some (t', b) ∧ realHeight t' = height t' ∧
      (b = true → height t' = height sample ∨ height t' = height sample + 1)) ∧
    (∃ t' b, remove sample 4 = some (t', b) ∧ realHeight t' = height t' ∧
      (b = true → height t' = height sample ∨ height t' = height sample - 1)) :=
  ⟨by decide, by decide, by decide,
    C19_height_step sample 4 (by decide) (by decide) (by decide)⟩

/-- C20. Insert followed by remove need not restore the shape: on the tree built by
`insert(10)`, `insert(20)` and the absent value 30, `insert(30)` and `remove(30)` both return
`true`, `in_order()` is again `[10, 20]`, and `pre_order()` went from `[10, 20]` to `[20, 10]`. -/
theorem C20_shape_not_restored :
    ∃ (t : TreeNode Int) (v : Int), Reachable t ∧ v ∉ in_order t ∧
      ∃ t1 t2, insert t v = some (t1, true) ∧ remove t1 v = some (t2, true) ∧
        in_order t2 = in_order t ∧ pre_order t2 ≠ pre_order t ∧
        t = chain ∧ v = 30 ∧ pre_order t = [10, 20] ∧ pre_order t2 = [20, 10] :=
  ⟨chain, 30, ⟨[Op.insert 10, Op.insert 20], by decide⟩, by decide,
    node 20 (node 10 nil nil 0) (node 30 nil nil 0) 1, node 20 (node 10 nil nil 0) nil 1,
    by decide, by decide, by decide, by decide, rfl, rfl, by decide, by decide⟩

/-! ## Removal of a node with two children -/

/-- The two-children branch of `remove`, once the inner call has returned `true`. -/
theorem remove_two_children (v s : α) (ld rd : α) (ll lr rl rr sr r' : TreeNode α)
    (lh rh sh h : Int)
    (hm : TreeNode.min (node rd rl rr rh) = node s nil sr sh)
    (hr : remove (node rd rl rr rh) s = some (r', true)) :
    remove (node v (node ld ll lr lh) (node rd rl rr rh) h) v =
      (balance (node s (node ld ll lr lh) r' h)).map (fun t => (t, true)) := by
  rw [remove_node_eq]
  simp only [lt_irrefl, gt_iff_lt, if_false, hm, hr, if_true]

theorem head_le_of_sorted (s : α) (rest l : List α) (hs : l.Sorted (· < ·))
    (e : l = s :: rest) : ∀ x ∈ l, s ≤ x := by
  subst e
  intro x hx
  rcases List.mem_cons.mp hx with rfl | hx
  · exact le_refl _
  · exact le_of_lt (List.rel_of_sorted_cons hs x hx)

/-- C12. For every tree that satisfies the ordering, balance and height-coherence invariants
and whose root holds `v` and has two children: `remove(v)` returns `true`; the value set loses
`v` and nothing else; the new tree is balanced (and coherent and ordered); and with `s` the
least value of the former right subtree and `r'` that subtree after the inner `remove(s)`, if
no rotation is needed at the root (`|height(l) - height(r')| ≤ 1`) the new root holds `s` above
`l` and `r'`. -/
theorem C12_two_children_removal (v : α) (l r : TreeNode α) (h : Int)
    (ho : Ordered (node v l r h)) (hb : Balanced (node v l r h))
    (hc : Coherent (node v l r h)) (hl : l ≠ nil) (hr : r ≠ nil) :
    ∃ t' s rest r', remove (node v l r h) v = some (t', true) ∧
      in_order r = s :: rest ∧ (∀ x ∈ in_order r, s ≤ x) ∧
      (∀ x, x ∈ in_order t' ↔ x ≠ v ∧ x ∈ in_order (node v l r h)) ∧
      in_order t' = in_order l ++ in_order r ∧
      Balanced t' ∧ Coherent t' ∧ Ordered t' ∧
      remove r s = some (r', true) ∧
      (|height l - height r'| ≤ 1 →
        t' = node s l r' (1 + Max.max (height l) (height r'))) := by
  have hi : Inv (node v l r h) := (inv_iff _).mpr ⟨hc, hb⟩
  have hs := (ordered_iff_sorted _).mp ho
  have hnd : (in_order (node v l r h)).Nodup := hs.imp ne_of_lt
  obtain ⟨il, ir, e0, b1, b2⟩ := hi
  obtain ⟨o1, o2, ol, or⟩ := ho
  have hvl : v ∉ in_order l := fun hm => lt_irrefl v (o1 v hm)
  cases l with
  | nil => exact absurd rfl hl
  | node ld ll lr lh =>
    cases r with
    | nil => exact absurd rfl hr
    | node rd rl rr rh =>
      obtain ⟨s, sr, sh, rest, e1, e2⟩ := min_spec rd rl rr rh
      obtain ⟨r', b', e, -⟩ := remove_total (node rd rl rr rh) s ir.heightsNonneg
      obtain ⟨s1, s2⟩ := remove_spec _ r' s b' or e
      have hb' : b' = true := s1.mpr (by rw [e2]; exact List.mem_cons_self _ _)
      subst hb'
      obtain ⟨ir', g1, g2⟩ := remove_inv _ r' s true ir or e
      obtain ⟨t', eb, it, -, -, k3⟩ :=
        balance_inv s (node ld ll lr lh) r' h il ir' (by omega) (by omega)
      have hrem := remove_two_children v s ld rd ll lr rl rr sr r' lh rh sh h e1 e
      rw [eb] at hrem
      have hin : in_order t' = in_order (node ld ll lr lh) ++ in_order (node rd rl rr rh) := by
        rw [balance_in_order _ _ eb, in_order_cons (d := s), s2 rfl, e2]
        simp
      have hmem : ∀ x, x ∈ in_order t' ↔
          x ≠ v ∧ x ∈ in_order (node v (node ld ll lr lh) (node rd rl rr rh) h) := by
        intro x
        rw [hin, in_order_cons (d := v), List.mem_append, List.mem_append, List.mem_cons]
        constructor
        · rintro (hx | hx)
          · exact ⟨ne_of_lt (o1 x hx), Or.inl hx⟩
          · exact ⟨ne_of_gt (o2 x hx), Or.inr (Or.inr hx)⟩
        · rintro ⟨hne, hx | hx | hx⟩
          · exact Or.inl hx
          · exact absurd hx hne
          · exact Or.inr hx
      have hord : Ordered t' := by
        rw [ordered_iff_sorted, hin]
        have := hs
        rw [in_order_cons (d := v)] at this
        unfold List.Sorted at this ⊢
        rw [List.pairwise_append] at this ⊢
        refine ⟨this.1, (List.pairwise_cons.mp this.2.1).2, fun a ha b hb => ?_⟩
        exact this.2.2 a ha b (List.mem_cons_of_mem _ hb)
      refine ⟨t', s, rest, r', hrem, e2,
        head_le_of_sorted s rest _ ((ordered_iff_sorted _).mp or) e2,
        hmem, hin, it.balanced, it.coherent, hord, e, fun habs => ?_⟩
      rw [abs_le] at habs
      exact k3 habs.1 habs.2

/-- C12, the scenario of the specification: the tree built by inserting 5, 3, 8, 1, 4, 7, 9,
then `remove(5)`: the root becomes 7, `in_order()` is `[1, 3, 4, 7, 8, 9]`, `pre_order()` is
`[7, 3, 1, 4, 8, 9]` and `is_balanced()` is `true`. -/
theorem C12_two_children_removal_witness :
    run nil sampleOps = some sample ∧
    sample = node 5 (node 3 (node 1 nil nil 0) (node 4 nil nil 0) 1)
      (node 8 (node 7 nil nil 0) (node 9 nil nil 0) 1) 2 ∧
    Ordered sample ∧ Balanced sample ∧ Coherent sample ∧
    remove sample 5 = some (node 7 (node 3 (node 1 nil nil 0) (node 4 nil nil 0) 1)
      (node 8 nil (node 9 nil nil 0) 1) 2, true) ∧
    in_order (node (7 : Int) (node 3 (node 1 nil nil 0) (node 4 nil nil 0) 1)
      (node 8 nil (node 9 nil nil 0) 1) 2) = [1, 3, 4, 7, 8, 9] ∧
    pre_order (node (7 : Int) (node 3 (node 1 nil nil 0) (node 4 nil nil 0) 1)
      (node 8 nil (node 9 nil nil 0) 1) 2) = [7, 3, 1, 4, 8, 9] ∧
    is_balanced (node (7 : Int) (node 3 (node 1 nil nil 0) (node 4 nil nil 0) 1)
      (node 8 nil (node 9 nil nil 0) 1) 2) = true ∧
    ∃ t' s rest r',
      remove (node (5 : Int) (node 3 (node 1 nil nil 0) (node 4 nil nil 0) 1)
        (node 8 (node 7 nil nil 0) (node 9 nil nil 0) 1) 2) 5 = some (t', true) ∧
      in_order (node (8 : Int) (node 7 nil nil 0) (node 9 nil nil 0) 1) = s :: rest ∧
      (∀ x ∈ in_order (node (8 : Int) (node 7 nil nil 0) (node 9 nil nil 0) 1), s ≤ x) ∧
      (∀ x, x ∈ in_order t' ↔ x ≠ 5 ∧
        x ∈ in_order (node (5 : Int) (node 3 (node 1 nil nil 0) (node 4 nil nil 0) 1)
          (node 8 (node 7 nil nil 0) (node 9 nil nil 0) 1) 2)) ∧
      in_order t' = in_order (node (3 : Int) (node 1 nil nil 0) (node 4 nil nil 0) 1)
        ++ in_order (node (8 : Int) (node 7 nil nil 0) (node 9 nil nil 0) 1) ∧
      Balanced t' ∧ Coherent t' ∧ Ordered t' ∧
      remove (node (8 : Int) (node 7 nil nil 0) (node 9 nil nil 0) 1) s = some (r', true) ∧
      (|height (node (3 : Int) (node 1 nil nil 0) (node 4 nil nil 0) 1) - height r'| ≤ 1 →
        t' = node s (node 3 (node 1 nil nil 0) (node 4 nil nil 0) 1) r'
          (1 + Max.max (height (node (3 : Int) (node 1 nil nil 0) (node 4 nil nil 0) 1))
            (height r'))) :=
  ⟨by decide, rfl, by decide, by decide, by decide, by decide, by decide, by decide, by decide,
    C12_two_children_removal 5 (node 3 (node 1 nil nil 0) (node 4 nil nil 0) 1)
      (node 8 (node 7 nil nil 0) (node 9 nil nil 0) 1) 2
      (by decide) (by decide) (by decide) (by decide) (by decide)⟩

/-! ## Removal of the successor -/

/-- On an ordered subtree, removing the value of its leftmost node is the walk described by
`removeLeftmost`: left at every node that has a left child, splice at the one that has none. -/
theorem remove_min_eq (d : α) (l r : TreeNode α) (h : Int) (s : α) (sr : TreeNode α)
    (sh : Int) (ho : Ordered (node d l r h))
    (hm : TreeNode.min (node d l r h) = node s nil sr sh) :
    remove (node d l r h) s = (removeLeftmost (node d l r h)).map (fun t => (t, true)) := by
  induction l generalizing d r h with
  | nil =>
    simp only [TreeNode.min, node.injEq] at hm
    obtain ⟨rfl, -, -⟩ := hm
    rw [remove_node_eq]
    simp only [lt_irrefl, gt_iff_lt, if_false, removeLeftmost]
  | node ld ll lr lh ihl _ =>
    obtain ⟨o1, o2, ol, or⟩ := ho
    have hm' : TreeNode.min (node ld ll lr lh) = node s nil sr sh := by
      rw [TreeNode.min] at hm; exact hm
    obtain ⟨s', sr', sh', tl, e1, e2⟩ := min_spec ld ll lr lh
    rw [hm'] at e1
    simp only [node.injEq, true_and] at e1
    obtain ⟨rfl, -, -⟩ := e1
    have hlt : s < d := o1 s (by rw [e2]; exact List.mem_cons_self _ _)
    have ih := ihl ld lr lh ol hm'
    have hrl : removeLeftmost (node d (node ld ll lr lh) r h) =
        match removeLeftmost (node ld ll lr lh) with
        | none => none
        | some l' => balance (node d l' r h) := rfl
    rw [remove_node_eq, hrl]
    simp only [hlt, if_true, ih]
    generalize removeLeftmost (node ld ll lr lh) = q
    cases q with
    | none => rfl
    | some l' => simp

theorem size_right_lt (d : α) (l r : TreeNode α) (h : Int) :
    size r < size (node d l r h) := by
  simp only [size]
  omega

theorem inv_subtree (s t : TreeNode α) (ht : Inv t) (hs : Subtree s t) : Inv s := by
  induction t with
  | nil =>
    have e : s = nil := hs
    rw [e]; trivial
  | node d l r h ihl ihr =>
    rcases hs with e | hs | hs
    · rw [e]; exact ht
    · exact ihl ht.1 hs
    · exact ihr ht.2.1 hs

/-- C17. For every node with two children that satisfies the ordering invariant: `min` on the
right subtree returns the node that holds the first element of the right subtree's
`in_order()`, its least value, and that node has no left child; the right subtree is strictly
smaller than the node's subtree; and whenever the node sits in an AVL tree (a tree the public
interface builds from the empty tree), the inner call `remove(node->right, successor)` only
goes left until that node and splices there (it is the walk `removeLeftmost`, which has no
two-children branch) and returns `true`. -/
theorem C17_successor_removal (d : α) (l r : TreeNode α) (h : Int)
    (ho : Ordered (node d l r h)) (hl : l ≠ nil) (hr : r ≠ nil) :
    ∃ s sr sh rest, TreeNode.min r = node s nil sr sh ∧
      in_order r = s :: rest ∧ (∀ x ∈ rest, s < x) ∧
      size r < size (node d l r h) ∧
      ∀ t, Reachable t → Subtree (node d l r h) t →
        ∃ r', removeLeftmost r = some r' ∧ remove r s = some (r', true) := by
  obtain ⟨-, -, -, or⟩ := ho
  cases r with
  | nil => exact absurd rfl hr
  | node rd rl rr rh =>
    obtain ⟨s, sr, sh, rest, e1, e2⟩ := min_spec rd rl rr rh
    have hs := (ordered_iff_sorted _).mp or
    rw [e2] at hs
    refine ⟨s, sr, sh, rest, e1, e2, fun x hx => List.rel_of_sorted_cons hs x hx,
      size_right_lt d l _ h, ?_⟩
    intro t hreach hsub
    have hnode : Inv (node d l (node rd rl rr rh) h) := inv_subtree _ t hreach.inv.1 hsub
    obtain ⟨r', b, e, -⟩ := remove_total (node rd rl rr rh) s hnode.2.1.heightsNonneg
    have hq := remove_min_eq rd rl rr rh s sr sh or e1
    rw [e] at hq
    cases hrl : removeLeftmost (node rd rl rr rh) with
    | none => rw [hrl] at hq; simp at hq
    | some r'' =>
      rw [hrl] at hq
      simp only [Option.map_some', Option.some.injEq, Prod.mk.injEq] at hq
      obtain ⟨rfl, rfl⟩ := hq
      exact ⟨r', rfl, e⟩

/-- C17, instance: the root 5 of the tree built from 5, 3, 8, 1, 4, 7, 9; its successor is 7,
the left leaf of the right subtree, and the inner call splices it out. -/
theorem C17_successor_removal_witness :
    Ordered sample ∧ Reachable sample ∧ Subtree sample sample ∧
    TreeNode.min (node (8 : Int) (node 7 nil nil 0) (node 9 nil nil 0) 1) = node 7 nil nil 0 ∧
    remove (node (8 : Int) (node 7 nil nil 0) (node 9 nil nil 0) 1) 7
      = some (node 8 nil (node 9 nil nil 0) 1, true) ∧
    ∃ s sr sh rest,
      TreeNode.min (node (8 : Int) (node 7 nil nil 0) (node 9 nil nil 0) 1)
        = node s nil sr sh ∧
      in_order (node (8 : Int) (node 7 nil nil 0) (node 9 nil nil 0) 1) = s :: rest ∧
      (∀ x ∈ rest, s < x) ∧
      size (node (8 : Int) (node 7 nil nil 0) (node 9 nil nil 0) 1) <
        size (node (5 : Int) (node 3 (node 1 nil nil 0) (node 4 nil nil 0) 1)
          (node 8 (node 7 nil nil 0) (node 9 nil nil 0) 1) 2) ∧
      ∀ t, Reachable t →
        Subtree (node (5 : Int) (node 3 (node 1 nil nil 0) (node 4 nil nil 0) 1)
          (node 8 (node 7 nil nil 0) (node 9 nil nil 0) 1) 2) t →
        ∃ r', removeLeftmost (node (8 : Int) (node 7 nil nil 0) (node 9 nil nil 0) 1)
            = some r' ∧
          remove (node (8 : Int) (node 7 nil nil 0) (node 9 nil nil 0) 1) s
            = some (r', true) :=
  ⟨by decide, ⟨sampleOps, by decide⟩, by decide, by decide, by decide,
    C17_successor_removal 5 (node 3 (node 1 nil nil 0) (node 4 nil nil 0) 1)
      (node 8 (node 7 nil nil 0) (node 9 nil nil 0) 1) 2
      (by decide) (by decide) (by decide)⟩

/-! ## The unbalanced baseline -/

theorem bst_inOrder_eq (t : BST.TreeNode α) (acc : List α) :
    BST.inOrder t acc = acc ++ BST.inOrder t [] := by
  induction t generalizing acc with
  | nil => simp [BST.inOrder]
  | node x l r ihl ihr =>
    simp only [BST.inOrder]
    rw [ihr (BST.inOrder l acc ++ [x]), ihl acc, ihr (BST.inOrder l [] ++ [x])]
    simp

@[simp] theorem bst_in_order_nil : BST.in_order (BST.TreeNode.nil : BST.TreeNode α) = [] := rfl

@[simp] theorem bst_in_order_node (x : α) (l r : BST.TreeNode α) :
    BST.in_order (BST.TreeNode.node x l r) = BST.in_order l ++ x :: BST.in_order r := by
  show BST.inOrder (BST.TreeNode.node x l r) [] = BST.inOrder l [] ++ x :: BST.inOrder r []
  simp only [BST.inOrder]
  rw [bst_inOrder_eq r]
  simp

theorem sorted_append_cons (l r : List α) (x : α) (hs : (l ++ x :: r).Sorted (· < ·)) :
    l.Sorted (· < ·) ∧ r.Sorted (· < ·) ∧ (∀ a ∈ l, a < x) ∧
      (∀ b ∈ r, x < b) := by
  unfold List.Sorted at hs ⊢
  rw [List.pairwise_append, List.pairwise_cons] at hs
  exact ⟨hs.1, hs.2.1.2, fun a ha => hs.2.2 a ha x (List.mem_cons_self _ _), hs.2.1.1⟩

theorem bst_insert_spec (t : BST.TreeNode α) (v : α)
    (hs : (BST.in_order t).Sorted (· < ·)) :
    (BST.insert t v).2 = decide (v ∉ BST.in_order t) ∧
    BST.in_order (BST.insert t v).1 =
      if v ∈ BST.in_order t then BST.in_order t
      else List.orderedInsert (· ≤ ·) v (BST.in_order t) := by
  induction t with
  | nil => simp [BST.insert]
  | node x l r ihl ihr =>
    rw [bst_in_order_node] at hs
    obtain ⟨sl, sr, o1, o2⟩ := sorted_append_cons _ _ _ hs
    obtain ⟨l1, l2⟩ := ihl sl
    obtain ⟨r1, r2⟩ := ihr sr
    rw [BST.insert]
    by_cases c1 : v < x
    · have hr : v ∉ BST.in_order r := fun hm => lt_asymm c1 (o2 v hm)
      have hx : v ≠ x := ne_of_lt c1
      simp only [c1, if_true, bst_in_order_node, l1, l2, List.mem_append, List.mem_cons, hr,
        hx, or_false, true_and]
      by_cases hl : v ∈ BST.in_order l
      · simp only [hl, if_true]
      · simp only [hl, if_false]
        rw [orderedInsert_append_left v x _ _ (le_of_lt c1)]
    · by_cases c2 : x < v
      · have hl : v ∉ BST.in_order l := fun hm => lt_asymm c2 (o1 v hm)
        have hx : v ≠ x := ne_of_gt c2
        simp only [c1, c2, if_true, if_false, bst_in_order_node, r1, r2, List.mem_append,
          List.mem_cons, hl, hx, false_or, true_and]
        by_cases hr : v ∈ BST.in_order r
        · simp only [hr, if_true]
        · simp only [hr, if_false]
          rw [orderedInsert_append_right v x _ _ (fun a ha => lt_trans (o1 a ha) c2) c2]
      · have hx : v = x := le_antisymm (not_lt.mp c2) (not_lt.mp c1)
        simp [c1, c2, hx]

theorem bst_contain_spec (t : BST.TreeNode α) (v : α)
    (hs : (BST.in_order t).Sorted (· < ·)) :
    BST.contain t v = decide (v ∈ BST.in_order t) := by
  induction t with
  | nil => simp [BST.contain]
  | node x l r ihl ihr =>
    rw [bst_in_order_node] at hs
    obtain ⟨sl, sr, o1, o2⟩ := sorted_append_cons _ _ _ hs
    rw [BST.contain]
    split_ifs with c1 c2
    · have hr : v ∉ BST.in_order r := fun hm => lt_asymm c1 (o2 v hm)
      have hx : v ≠ x := ne_of_lt c1
      simp [ihl sl, hr, hx]
    · have hl : v ∉ BST.in_order l := fun hm => lt_asymm c2 (o1 v hm)
      have hx : v ≠ x := ne_of_gt c2
      simp [ihr sr, hl, hx]
    · have hx : v = x := le_antisymm (not_lt.mp c2) (not_lt.mp c1)
      simp [hx]

theorem bst_findMin_spec (x : α) (l r : BST.TreeNode α) :
    ∃ m mr tl, BST.findMin (BST.TreeNode.node x l r) = BST.TreeNode.node m BST.TreeNode.nil mr ∧
      BST.in_order (BST.TreeNode.node x l r) = m :: tl := by
  induction l generalizing x r with
  | nil => exact ⟨x, r, BST.in_order r, rfl, by simp⟩
  | node lx ll lr ihl _ =>
    obtain ⟨m, mr, tl, e1, e2⟩ := ihl lx lr
    refine ⟨m, mr, tl ++ x :: BST.in_order r, ?_, ?_⟩
    · rw [BST.findMin]; exact e1
    · rw [bst_in_order_node, e2]; simp

theorem bst_remove_node_eq (x : α) (l r : BST.TreeNode α) (v : α) :
    BST.remove (BST.TreeNode.node x l r) v =
      if v < x then
        match BST.remove l v with
        | none => none
        | some (l', b) => some (BST.TreeNode.node x l' r, b)
      else if x < v then
        match BST.remove r v with
        | none => none
        | some (r', b) => some (BST.TreeNode.node x l r', b)
      else
        match l, r with
        | BST.TreeNode.nil, BST.TreeNode.nil => some (BST.TreeNode.nil, true)
        | BST.TreeNode.nil, BST.TreeNode.node _ _ _ => some (r, true)
        | BST.TreeNode.node _ _ _, BST.TreeNode.nil => some (l, true)
        | BST.TreeNode.node _ _ _, BST.TreeNode.node _ _ _ =>
          match BST.findMin r with
          | BST.TreeNode.nil => none
          | BST.TreeNode.node m _ _ =>
            match BST.remove r m with
            | none => none
            | some (r', _) => some (BST.TreeNode.node m l r', true) := by
  cases l <;> cases r <;> rfl

theorem bst_remove_spec (t : BST.TreeNode α) (v : α)
    (hs : (BST.in_order t).Sorted (· < ·)) :
    ∃ t', BST.remove t v = some (t', decide (v ∈ BST.in_order t)) ∧
      BST.in_order t' = (BST.in_order t).erase v := by
  induction t generalizing v with
  | nil => exact ⟨BST.TreeNode.nil, rfl, rfl⟩
  | node x l r ihl ihr =>
    rw [bst_in_order_node] at hs
    obtain ⟨sl, sr, o1, o2⟩ := sorted_append_cons _ _ _ hs
    have hxl : x ∉ BST.in_order l := fun hm => lt_irrefl x (o1 x hm)
    rw [bst_remove_node_eq]
    split_ifs with c1 c2
    · have hr : v ∉ BST.in_order r := fun hm => lt_asymm c1 (o2 v hm)
      have hx : v ≠ x := ne_of_lt c1
      obtain ⟨l', e, el⟩ := ihl v sl
      refine ⟨BST.TreeNode.node x l' r, ?_, ?_⟩
      · simp [e, hr, hx]
      · rw [bst_in_order_node, bst_in_order_node, el]
        by_cases hl : v ∈ BST.in_order l
        · rw [List.erase_append_left _ hl]
        · rw [List.erase_of_not_mem hl, List.erase_of_not_mem]
          simp [hl, hr, hx]
    · have hl : v ∉ BST.in_order l := fun hm => lt_asymm c2 (o1 v hm)
      have hx : v ≠ x := ne_of_gt c2
      obtain ⟨r', e, er⟩ := ihr v sr
      refine ⟨BST.TreeNode.node x l r', ?_, ?_⟩
      · simp [e, hl, hx]
      · rw [bst_in_order_node, bst_in_order_node, er, List.erase_append_right _ hl,
          List.erase_cons_tail]
        simpa using Ne.symm hx
    · have hx : v = x := le_antisymm (not_lt.mp c2) (not_lt.mp c1)
      subst hx
      cases l with
      | nil =>
        cases r with
        | nil => exact ⟨BST.TreeNode.nil, by simp, by simp⟩
        | node rx rl rr => exact ⟨BST.TreeNode.node rx rl rr, by simp, by simp⟩
      | node lx ll lr =>
        cases r with
        | nil =>
          refine ⟨BST.TreeNode.node lx ll lr, by simp, ?_⟩
          rw [bst_in_order_node (x := v), bst_in_order_nil, List.erase_append_right _ hxl]
          simp
        | node rx rl rr =>
          obtain ⟨m, mr, tl, e1, e2⟩ := bst_findMin_spec rx rl rr
          obtain ⟨r', e, er⟩ := ihr m sr
          refine ⟨BST.TreeNode.node m (BST.TreeNode.node lx ll lr) r', ?_, ?_⟩
          · simp [e1, e]
          · rw [bst_in_order_node (x := m), er, bst_in_order_node (x := v),
              List.erase_append_right _ hxl, e2]
            simp

/-! ## Lock-step with the baseline -/

theorem sorted_ite_orderedInsert (v : α) (l : List α) (hs : l.Sorted (· < ·)) :
    (if v ∈ l then l else List.orderedInsert (· ≤ ·) v l).Sorted (· < ·) := by
  by_cases hv : v ∈ l
  · simp only [hv, if_true]; exact hs
  · simp only [hv, if_false]; exact sorted_orderedInsert v l hs hv

/-- What one call of the AVL tree shows to a client, in terms of `in_order()` before it. -/
theorem call_obs (t : TreeNode α) (c : Call α) (hi : Inv t) (ho : Ordered t) :
    ∃ t' b, call t c = some (t', b) ∧ Inv t' ∧ Ordered t' ∧
      b = (expected (in_order t) c).1 ∧ in_order t' = (expected (in_order t) c).2 := by
  cases c with
  | insert v =>
    obtain ⟨t', b, e, -⟩ := insert_total t v hi.heightsNonneg
    obtain ⟨i', -, -⟩ := insert_inv t t' v b hi e
    obtain ⟨s1, s2⟩ := insert_spec t t' v b ho e
    refine ⟨t', b, e, i', insert_ordered t t' v b ho e, ?_, ?_⟩ <;> simp only [expected]
    · cases b with
      | true => simp [s1.mp rfl]
      | false =>
        have hv : v ∈ in_order t := by
          by_contra hn
          exact Bool.false_ne_true (s1.mpr hn)
        simp [hv]
    · cases b with
      | true => simp only [s1.mp rfl, if_false]; exact s2 rfl
      | false =>
        have hv : v ∈ in_order t := by
          by_contra hn
          exact Bool.false_ne_true (s1.mpr hn)
        simp only [hv, if_true]
        rw [insert_false _ _ _ e]
  | remove v =>
    obtain ⟨t', b, e, -⟩ := remove_total t v hi.heightsNonneg
    obtain ⟨i', -, -⟩ := remove_inv t t' v b hi ho e
    obtain ⟨s1, s2⟩ := remove_spec t t' v b ho e
    have ho' : Ordered t' := by
      cases b with
      | true =>
        rw [ordered_iff_sorted, s2 rfl]
        exact List.Pairwise.erase v ((ordered_iff_sorted t).mp ho)
      | false =>
        have hv : v ∉ in_order t := fun hn => Bool.false_ne_true (s1.mpr hn)
        rw [remove_absent _ _ hv] at e
        simp only [Option.some.injEq, Prod.mk.injEq, and_true] at e
        rw [← e]; exact ho
    refine ⟨t', b, e, i', ho', ?_, ?_⟩ <;> simp only [expected]
    · cases b with
      | true => simp [s1.mp rfl]
      | false =>
        have hv : v ∉ in_order t := fun hn => Bool.false_ne_true (s1.mpr hn)
        simp [hv]
    · cases b with
      | true => exact s2 rfl
      | false =>
        have hv : v ∉ in_order t := fun hn => Bool.false_ne_true (s1.mpr hn)
        rw [remove_absent _ _ hv] at e
        simp only [Option.some.injEq, Prod.mk.injEq, and_true] at e
        rw [← e, List.erase_of_not_mem hv]
  | contain v =>
    refine ⟨t, contain t v, rfl, hi, ho, ?_, rfl⟩
    simp only [expected]
    by_cases hv : v ∈ in_order t
    · simp [hv, (contain_iff t v ho).mpr hv]
    · have : contain t v = false := by
        cases hc : contain t v with
        | false => rfl
        | true => exact absurd ((contain_iff t v ho).mp hc) hv
      simp [hv, this]

/-- What one call of the baseline shows to a client, in terms of `in_order()` before it. -/
theorem bst_call_obs (u : BST.TreeNode α) (c : Call α)
    (hs : (BST.in_order u).Sorted (· < ·)) :
    ∃ u' b, BST.call u c = some (u', b) ∧ (BST.in_order u').Sorted (· < ·) ∧
      b = (expected (BST.in_order u) c).1 ∧
      BST.in_order u' = (expected (BST.in_order u) c).2 := by
  cases c with
  | insert v =>
    obtain ⟨h1, h2⟩ := bst_insert_spec u v hs
    refine ⟨(BST.insert u v).1, (BST.insert u v).2, rfl, ?_, h1, h2⟩
    rw [h2]
    exact sorted_ite_orderedInsert v _ hs
  | remove v =>
    obtain ⟨u', e, h2⟩ := bst_remove_spec u v hs
    refine ⟨u', _, e, ?_, rfl, h2⟩
    rw [h2]
    exact List.Pairwise.erase v hs
  | contain v =>
    exact ⟨u, BST.contain u v, rfl, hs, bst_contain_spec u v hs, rfl⟩

theorem trace_sim (calls : List (Call α)) (t : TreeNode α) (u : BST.TreeNode α)
    (hi : Inv t) (ho : Ordered t) (he : in_order t = BST.in_order u) :
    ∃ obs, trace t calls = some obs ∧ BST.trace u calls = some obs ∧
      obs.length = calls.length := by
  induction calls generalizing t u with
  | nil => exact ⟨[], rfl, rfl, rfl⟩
  | cons c cs ih =>
    have hs : (BST.in_order u).Sorted (· < ·) := he ▸ (ordered_iff_sorted t).mp ho
    obtain ⟨t', b, e, i', o', k1, k2⟩ := call_obs t c hi ho
    obtain ⟨u', b', e', -, k1', k2'⟩ := bst_call_obs u c hs
    rw [← he] at k1' k2'
    have hb : b' = b := k1'.trans k1.symm
    have he' : in_order t' = BST.in_order u' := k2.trans k2'.symm
    subst hb
    obtain ⟨obs, f1, f2, f3⟩ := ih t' u' i' o' he'
    refine ⟨(b', in_order t') :: obs, ?_, ?_, by simp [f3]⟩
    · simp [trace, e, f1]
    · simp [BST.trace, e', f2, he']

/-- C14. For every finite sequence of `insert` / `remove` / `contain` calls, applied in
lock-step to an initially empty AVL tree and an initially empty baseline tree: all calls return
on both, every call returns the same `bool` on both, and after every call `in_order()` is the
same list on both. -/
theorem C14_same_contract_as_baseline (calls : List (Call α)) :
    ∃ obs, trace nil calls = some obs ∧
      BST.trace BST.TreeNode.nil calls = some obs ∧ obs.length = calls.length :=
  trace_sim calls nil BST.TreeNode.nil trivial trivial rfl

/-- C14, instance: twelve calls with rotations, a duplicate insert, removals of absent values
and of a node with two children; the fifth call is `contain(8)`, the last is `insert(1)`. -/
theorem C14_same_contract_as_baseline_witness :
    (∃ obs, trace nil sampleCalls = some obs ∧
      BST.trace BST.TreeNode.nil sampleCalls = some obs ∧ obs.length = sampleCalls.length) ∧
    (trace nil sampleCalls).map (fun obs => obs.getLast?)
      = some (some (true, [1, 3, 8, 10])) :=
  ⟨C14_same_contract_as_baseline sampleCalls, by decide⟩

end AVL
